import Mathlib

/-!
Verification of the UFC matchup-prediction engine (src/model/ufc_nn.c).

The development shallowly embeds the context tracker (FighterRecord /
HeadToHeadRecord / MatchContext with get-or-add semantics), the feature
engineer (compute_features), the trainer's chronological feature scan and
mirrored augmentation, the normalizer, the fixed-topology network forward
pass over the reals, the early-stopping epoch loop, the evaluator's
threshold grid search, the model snapshot load/save size check, and the
future-matchup damping / temperature scaling of predict_interactive.

C doubles / long doubles are modelled as exact rationals (for the
computable bookkeeping) or reals (for transcendental network math);
machine floating point rounding is out of scope.
-/

namespace UFC

/-- Mirror of struct FighterRecord: per (name, weight class) cumulative
wins/losses/total counters. C ints are modelled as unbounded integers. -/
structure FighterRecord where
  name : String
  weightClass : String
  wins : ℤ := 0
  losses : ℤ := 0
  total : ℤ := 0
deriving DecidableEq, Repr

/-- Mirror of struct HeadToHeadRecord: per (canonically ordered pair,
weight class) cumulative counters. -/
structure HeadToHeadRecord where
  nameA : String
  nameB : String
  weightClass : String
  winsA : ℤ := 0
  winsB : ℤ := 0
  total : ℤ := 0
deriving DecidableEq, Repr

/-- Mirror of struct MatchContext (growable arrays become lists; the
append-at-end discipline of the C code is preserved). -/
structure MatchContext where
  fighters : List FighterRecord := []
  h2h : List HeadToHeadRecord := []
deriving DecidableEq, Repr

def emptyContext : MatchContext := {}

/-- Mirror of struct UFCFight restricted to the fields the engine reads:
identities, date, outcome label and the 12 raw statistics per side. -/
structure Fight where
  eventDate : String := ""
  weightClass : String := ""
  fighter1 : String := ""
  fighter2 : String := ""
  label : ℤ := -1
  f1Height : ℚ := 0
  f1Reach : ℚ := 0
  f1Age : ℚ := 0
  f1SigPm : ℚ := 0
  f1SigAcc : ℚ := 0
  f1SigAbs : ℚ := 0
  f1SigDef : ℚ := 0
  f1TdAvg : ℚ := 0
  f1TdAcc : ℚ := 0
  f1TdDef : ℚ := 0
  f1SubAvg : ℚ := 0
  f1Weight : ℚ := 0
  f2Height : ℚ := 0
  f2Reach : ℚ := 0
  f2Age : ℚ := 0
  f2SigPm : ℚ := 0
  f2SigAcc : ℚ := 0
  f2SigAbs : ℚ := 0
  f2SigDef : ℚ := 0
  f2TdAvg : ℚ := 0
  f2TdAcc : ℚ := 0
  f2TdDef : ℚ := 0
  f2SubAvg : ℚ := 0
  f2Weight : ℚ := 0
deriving DecidableEq

/-- The linear search of get_or_add_fighter / find_fighter_record:
first record matching (name, weight class). -/
def findFighter : List FighterRecord → String → String → Option FighterRecord
  | [], _, _ => none
  | r :: rs, n, w =>
    if r.name = n ∧ r.weightClass = w then some r else findFighter rs n w

/-- get_or_add_fighter: return the first matching record, or append a
zeroed record carrying the key (the successful-allocation path). -/
def getOrAddFighter (ctx : MatchContext) (n w : String) :
    FighterRecord × MatchContext :=
  match findFighter ctx.fighters n w with
  | some r => (r, ctx)
  | none =>
    let r : FighterRecord := { name := n, weightClass := w }
    (r, { ctx with fighters := ctx.fighters ++ [r] })

/-- strcmp-style lexicographic order on the code-point sequences (the C
names are ASCII byte strings, where this agrees with strcmp). -/
def charListLt : List Char → List Char → Bool
  | [], [] => false
  | [], _ :: _ => true
  | _ :: _, [] => false
  | c :: cs, d :: ds =>
    if c.toNat < d.toNat then true
    else if d.toNat < c.toNat then false
    else charListLt cs ds

def strLt (a b : String) : Bool := charListLt a.data b.data

/-- Canonical head-to-head key ordering: the C code swaps the names when
strcmp(left, right) > 0, so the stored nameA is the smaller string. -/
def h2hKey (f1 f2 : String) : String × String :=
  if strLt f2 f1 then (f2, f1) else (f1, f2)

def findH2H : List HeadToHeadRecord → String → String → String →
    Option HeadToHeadRecord
  | [], _, _, _ => none
  | r :: rs, a, b, w =>
    if r.nameA = a ∧ r.nameB = b ∧ r.weightClass = w then some r
    else findH2H rs a b w

/-- get_or_add_h2h: canonicalize the pair, then find-or-append. -/
def getOrAddH2H (ctx : MatchContext) (f1 f2 w : String) :
    HeadToHeadRecord × MatchContext :=
  let key := h2hKey f1 f2
  match findH2H ctx.h2h key.1 key.2 w with
  | some r => (r, ctx)
  | none =>
    let r : HeadToHeadRecord := { nameA := key.1, nameB := key.2, weightClass := w }
    (r, { ctx with h2h := ctx.h2h ++ [r] })

/-- In-place mutation through a record pointer becomes: update the first
record with the given key (the C search also stops at the first match). -/
def updateFirstFighter (l : List FighterRecord) (n w : String)
    (g : FighterRecord → FighterRecord) : List FighterRecord :=
  match l with
  | [] => []
  | r :: rs =>
    if r.name = n ∧ r.weightClass = w then g r :: rs
    else r :: updateFirstFighter rs n w g

def updateFirstH2H (l : List HeadToHeadRecord) (a b w : String)
    (g : HeadToHeadRecord → HeadToHeadRecord) : List HeadToHeadRecord :=
  match l with
  | [] => []
  | r :: rs =>
    if r.nameA = a ∧ r.nameB = b ∧ r.weightClass = w then g r :: rs
    else r :: updateFirstH2H rs a b w g

def bumpTotal (r : FighterRecord) : FighterRecord := { r with total := r.total + 1 }

def bumpWins (r : FighterRecord) : FighterRecord := { r with wins := r.wins + 1 }

def bumpLosses (r : FighterRecord) : FighterRecord := { r with losses := r.losses + 1 }

def bumpH2HTotal (r : HeadToHeadRecord) : HeadToHeadRecord := { r with total := r.total + 1 }

def bumpWinsA (r : HeadToHeadRecord) : HeadToHeadRecord := { r with winsA := r.winsA + 1 }

def bumpWinsB (r : HeadToHeadRecord) : HeadToHeadRecord := { r with winsB := r.winsB + 1 }

/-- update_context_with_result: get-or-add both fighter records and the
head-to-head record, then increment totals, and wins/losses according to
the label (label 1: fighter1 won; label 0: fighter2 won; any other label
only increments totals).  The C code mutates through pointers which may
alias when the two fighters share a key; sequential keyed updates
reproduce that behaviour. -/
def updateContextWithResult (ctx : MatchContext) (fi : Fight) : MatchContext :=
  let p1 := getOrAddFighter ctx fi.fighter1 fi.weightClass
  let p2 := getOrAddFighter p1.2 fi.fighter2 fi.weightClass
  let p3 := getOrAddH2H p2.2 fi.fighter1 fi.fighter2 fi.weightClass
  let key := h2hKey fi.fighter1 fi.fighter2
  let fs0 := p3.2.fighters
  let hs0 := p3.2.h2h
  let fs1 := updateFirstFighter fs0 fi.fighter1 fi.weightClass bumpTotal
  let fs2 := updateFirstFighter fs1 fi.fighter2 fi.weightClass bumpTotal
  let hs1 := updateFirstH2H hs0 key.1 key.2 fi.weightClass bumpH2HTotal
  if fi.label = 1 then
    let fs3 := updateFirstFighter fs2 fi.fighter1 fi.weightClass bumpWins
    let fs4 := updateFirstFighter fs3 fi.fighter2 fi.weightClass bumpLosses
    let hs2 :=
      if key.1 = fi.fighter1 then updateFirstH2H hs1 key.1 key.2 fi.weightClass bumpWinsA
      else updateFirstH2H hs1 key.1 key.2 fi.weightClass bumpWinsB
    { fighters := fs4, h2h := hs2 }
  else if fi.label = 0 then
    let fs3 := updateFirstFighter fs2 fi.fighter2 fi.weightClass bumpWins
    let fs4 := updateFirstFighter fs3 fi.fighter1 fi.weightClass bumpLosses
    let hs2 :=
      if key.1 = fi.fighter2 then updateFirstH2H hs1 key.1 key.2 fi.weightClass bumpWinsA
      else updateFirstH2H hs1 key.1 key.2 fi.weightClass bumpWinsB
    { fighters := fs4, h2h := hs2 }
  else
    { fighters := fs2, h2h := hs1 }

/-- Applying update_context_with_result to a whole observation sequence. -/
def applyAllResults (ds : List Fight) : MatchContext :=
  ds.foldl updateContextWithResult emptyContext

/-- prior_win_rate: Laplace-smoothed career win rate, 1/2 for an empty
record (the NULL-or-zero-total branch of the C code). -/
noncomputable def priorWinRate (r : FighterRecord) : ℝ :=
  if r.total = 0 then 1/2 else ((r.wins : ℝ) + 1) / ((r.total : ℝ) + 2)

/-- weighted_score: prior win rate scaled by log1p of the fight count,
0 for an empty record. -/
noncomputable def weightedScore (r : FighterRecord) : ℝ :=
  if r.total = 0 then 0 else priorWinRate r * Real.log (1 + (r.total : ℝ))

/-- head_to_head_bias relative to the queried (fighter1, fighter2)
ordering; 0 with no history, and 0 when neither orientation of the
record matches the query. -/
noncomputable def headToHeadBias (h : HeadToHeadRecord) (f1 f2 : String) : ℝ :=
  if h.total = 0 then 0
  else
    let w :=
      if h.nameA = f1 ∧ h.nameB = f2 then (h.winsA, h.winsB)
      else if h.nameA = f2 ∧ h.nameB = f1 then (h.winsB, h.winsA)
      else (0, 0)
    ((w.1 - w.2 : ℤ) : ℝ) / (h.total : ℝ)

/-- The inputs compute_features reads: the observation plus the three
context records returned by the get-or-add calls. -/
structure RawFeat where
  fight : Fight
  rec1 : FighterRecord
  rec2 : FighterRecord
  h2h : HeadToHeadRecord
deriving DecidableEq

/-- The context-access half of compute_features: the three get-or-add
calls, threading the blank-record insertions through the context.  The
later get-or-add calls never modify an existing record, so the record
snapshots equal what the C code reads through its pointers. -/
def computeFeatureRecords (fi : Fight) (ctx : MatchContext) :
    RawFeat × MatchContext :=
  let p1 := getOrAddFighter ctx fi.fighter1 fi.weightClass
  let p2 := getOrAddFighter p1.2 fi.fighter2 fi.weightClass
  let p3 := getOrAddH2H p2.2 fi.fighter1 fi.fighter2 fi.weightClass
  (⟨fi, p1.1, p2.1, p3.1⟩, p3.2)

/-- The value half of compute_features: the 20 feature formulas, exactly
as in the C body (12 raw deltas, 2 composites, 6 context deltas). -/
noncomputable def featureVec (rf : RawFeat) : Fin 20 → ℝ := fun i =>
  if i.val = 0 then ((rf.fight.f1Height - rf.fight.f2Height : ℚ) : ℝ)
  else if i.val = 1 then ((rf.fight.f1Reach - rf.fight.f2Reach : ℚ) : ℝ)
  else if i.val = 2 then ((rf.fight.f1Age - rf.fight.f2Age : ℚ) : ℝ)
  else if i.val = 3 then ((rf.fight.f1SigPm - rf.fight.f2SigPm : ℚ) : ℝ)
  else if i.val = 4 then ((rf.fight.f1SigAcc - rf.fight.f2SigAcc : ℚ) : ℝ)
  else if i.val = 5 then ((rf.fight.f1SigAbs - rf.fight.f2SigAbs : ℚ) : ℝ)
  else if i.val = 6 then ((rf.fight.f1SigDef - rf.fight.f2SigDef : ℚ) : ℝ)
  else if i.val = 7 then ((rf.fight.f1TdAvg - rf.fight.f2TdAvg : ℚ) : ℝ)
  else if i.val = 8 then ((rf.fight.f1TdAcc - rf.fight.f2TdAcc : ℚ) : ℝ)
  else if i.val = 9 then ((rf.fight.f1TdDef - rf.fight.f2TdDef : ℚ) : ℝ)
  else if i.val = 10 then ((rf.fight.f1SubAvg - rf.fight.f2SubAvg : ℚ) : ℝ)
  else if i.val = 11 then ((rf.fight.f1Weight - rf.fight.f2Weight : ℚ) : ℝ)
  else if i.val = 12 then
    (((rf.fight.f1SigPm - rf.fight.f1SigAbs) -
      (rf.fight.f2SigPm - rf.fight.f2SigAbs) : ℚ) : ℝ)
  else if i.val = 13 then
    (((rf.fight.f1TdAvg * rf.fight.f1TdAcc + rf.fight.f1SubAvg) -
      (rf.fight.f2TdAvg * rf.fight.f2TdAcc + rf.fight.f2SubAvg) : ℚ) : ℝ)
  else if i.val = 14 then priorWinRate rf.rec1 - priorWinRate rf.rec2
  else if i.val = 15 then ((rf.rec1.wins - rf.rec2.wins : ℤ) : ℝ)
  else if i.val = 16 then ((rf.rec1.total - rf.rec2.total : ℤ) : ℝ)
  else if i.val = 17 then weightedScore rf.rec1 - weightedScore rf.rec2
  else if i.val = 18 then
    (((if (1 : ℚ) ≤ rf.fight.f1SubAvg then 1 else 0) -
      (if (1 : ℚ) ≤ rf.fight.f2SubAvg then 1 else 0) : ℤ) : ℝ)
  else headToHeadBias rf.h2h rf.fight.fighter1 rf.fight.fighter2

/-- train's chronological split boundary: 80% of the samples, clamped to
at least 1 and at most num_samples - 1.  (Matches the C int arithmetic
for every num_samples >= 1.) -/
def trainBaseCount (n : ℕ) : ℕ :=
  let b := n * 8 / 10
  let b2 := if b < 1 then 1 else b
  if n ≤ b2 then n - 1 else b2

/-- train's feature-generation loop: for each observation in order,
compute features with the running context, then record the outcome into
the context only for observations below the train-base boundary. -/
def featureScan (B : ℕ) : ℕ → MatchContext → List Fight → List RawFeat
  | _, _, [] => []
  | i, ctx, fi :: rest =>
    let p := computeFeatureRecords fi ctx
    let ctx2 := if i < B then updateContextWithResult p.2 fi else p.2
    p.1 :: featureScan B (i + 1) ctx2 rest

/-- The raw feature inputs train computes for a (chronologically sorted)
dataset, boundary derived from the dataset size as in the C code. -/
def trainRawRows (ds : List Fight) : List RawFeat :=
  featureScan (trainBaseCount ds.length) 0 emptyContext ds

/-- The raw (pre-normalization) feature vectors of train's loop. -/
noncomputable def trainFeatureRows (ds : List Fight) : List (Fin 20 → ℝ) :=
  (trainRawRows ds).map featureVec
/-! ### C1: noninterference of the training feature loop -/

/-- Two feature-scan runs agree at index i whenever the observation
prefixes agree up to i and every step before i lies below both
train-base boundaries (so both runs record the same outcomes). -/
theorem featureScan_get?_congr (B B2 : ℕ) :
    ∀ (i : ℕ) (l l2 : List Fight) (pos : ℕ) (ctx : MatchContext),
      (∀ j, j ≤ i → l.get? j = l2.get? j) →
      (∀ j, j < i → pos + j < B ∧ pos + j < B2) →
      (featureScan B pos ctx l).get? i = (featureScan B2 pos ctx l2).get? i := by
  intro i
  induction i with
  | zero =>
    intro l l2 pos ctx hpre _
    have h0 := hpre 0 (Nat.le_refl 0)
    cases l with
    | nil =>
      cases l2 with
      | nil => rfl
      | cons g gs => simp at h0
    | cons f fs =>
      cases l2 with
      | nil => simp at h0
      | cons g gs =>
        simp only [List.get?] at h0
        cases Option.some.inj h0
        rfl
  | succ i ih =>
    intro l l2 pos ctx hpre hcond
    have h0 := hpre 0 (Nat.zero_le _)
    cases l with
    | nil =>
      cases l2 with
      | nil => rfl
      | cons g gs => simp at h0
    | cons f fs =>
      cases l2 with
      | nil => simp at h0
      | cons g gs =>
        simp only [List.get?] at h0
        cases Option.some.inj h0
        have hc0 := hcond 0 (Nat.succ_pos i)
        simp only [featureScan, List.get?]
        have hlt : pos < B ∧ pos < B2 := by
          simpa using hc0
        rw [if_pos hlt.1, if_pos hlt.2]
        exact ih fs gs (pos + 1) _
          (fun j hj => hpre (j + 1) (Nat.succ_le_succ hj))
          (fun j hj => by
            have := hcond (j + 1) (Nat.succ_lt_succ hj)
            constructor
            · have h1 := this.1
              omega
            · have h2 := this.2
              omega)

/-- For n ≥ 2 the clamped 80% boundary is max 1 (n*8/10). -/
theorem trainBaseCount_eq_max (n : ℕ) (hn : 2 ≤ n) :
    trainBaseCount n = max 1 (n * 8 / 10) := by
  have hb : n * 8 / 10 < n := by
    have h10 : 0 < 10 := by norm_num
    rw [Nat.div_lt_iff_lt_mul h10]
    omega
  unfold trainBaseCount
  by_cases h1 : n * 8 / 10 < 1
  · simp only [if_pos h1]
    have : ¬ n ≤ 1 := by omega
    rw [if_neg this]
    omega
  · simp only [if_neg h1]
    have : ¬ n ≤ n * 8 / 10 := by omega
    rw [if_neg this]
    omega

/-- For n ≥ 2 the boundary is strictly below n. -/
theorem trainBaseCount_lt (n : ℕ) (hn : 2 ≤ n) : trainBaseCount n < n := by
  rw [trainBaseCount_eq_max n hn]
  have hb : n * 8 / 10 < n := by
    rw [Nat.div_lt_iff_lt_mul (by norm_num : (0:ℕ) < 10)]
    omega
  omega

/-- The 80% boundary grows with the dataset (for sizes ≥ 2). -/
theorem trainBaseCount_mono (m n : ℕ) (hm : 2 ≤ m) (hmn : m ≤ n) :
    trainBaseCount m ≤ trainBaseCount n := by
  rw [trainBaseCount_eq_max m hm, trainBaseCount_eq_max n (le_trans hm hmn)]
  have : m * 8 / 10 ≤ n * 8 / 10 :=
    Nat.div_le_div_right (Nat.mul_le_mul_right 8 hmn)
  omega

/-- C1 (amended).  In train's feature loop the vector for observation i
depends only on outcomes recorded from observations strictly before i
inside the run's own train-base prefix; consequently, running train on a
chronologically sorted dataset and on its first K observations produces
identical feature vectors at every index i up to the TRUNCATED run's
train-base boundary trainBaseCount K.  (Beyond that boundary the two
runs may disagree, because the 80% boundary is derived from each run's
dataset size: see the counterexample.) -/
theorem c1_feature_truncation_agree (ds : List Fight) (K i : ℕ)
    (hK2 : 2 ≤ K) (hKlen : K ≤ ds.length) (hi : i ≤ trainBaseCount K) :
    (trainFeatureRows ds).get? i = (trainFeatureRows (ds.take K)).get? i := by
  have hlen : (ds.take K).length = K := by
    rw [List.length_take]
    exact min_eq_left hKlen
  have hBB : trainBaseCount K ≤ trainBaseCount ds.length :=
    trainBaseCount_mono K ds.length hK2 hKlen
  have hiK : i < K := lt_of_le_of_lt hi (trainBaseCount_lt K hK2)
  unfold trainFeatureRows trainRawRows
  rw [List.get?_map, List.get?_map, hlen]
  congr 1
  apply featureScan_get?_congr
  · intro j hj
    have hjK : j < K := lt_of_le_of_lt (le_trans hj hi)
      (trainBaseCount_lt K hK2)
    exact (List.get?_take hjK).symm
  · intro j hj
    have hjB : j < trainBaseCount K := lt_of_lt_of_le hj hi
    exact ⟨by omega, by simpa using hjB⟩

def c1Fight (d o : String) : Fight :=
  { eventDate := d, weightClass := "W", fighter1 := "A", fighter2 := o,
    label := 1 }

/-- A 12-observation chronologically sorted dataset: fighter A beats a
fresh opponent in every fight. -/
def c1Fights : List Fight :=
  [c1Fight "d00" "B00", c1Fight "d01" "B01", c1Fight "d02" "B02",
   c1Fight "d03" "B03", c1Fight "d04" "B04", c1Fight "d05" "B05",
   c1Fight "d06" "B06", c1Fight "d07" "B07", c1Fight "d08" "B08",
   c1Fight "d09" "B09", c1Fight "d10" "B10", c1Fight "d11" "B11"]

theorem c1_feature_truncation_agree_witness :
    2 ≤ 10 ∧ 10 ≤ c1Fights.length ∧ 3 ≤ trainBaseCount 10 ∧
    (trainFeatureRows c1Fights).get? 3 =
      (trainFeatureRows (c1Fights.take 10)).get? 3 :=
  ⟨by norm_num, by decide, by decide,
   c1_feature_truncation_agree c1Fights 10 3 (by norm_num) (by decide)
     (by decide)⟩

set_option maxRecDepth 100000 in
/-- C1 as frozen is false: with the 12-fight dataset above and K = 10,
observation 9 lies inside the full run's train-base prefix (boundary 9)
but beyond the truncated run's boundary (8), so the full run has
recorded one more outcome for fighter A: the total-fights delta is 9 in
one run and 8 in the other. -/
theorem c1_counterexample :
    ¬ (∀ j, j < 10 →
        (trainFeatureRows c1Fights).get? j =
          (trainFeatureRows (c1Fights.take 10)).get? j) := by
  intro h
  have h9 := h 9 (by norm_num)
  unfold trainFeatureRows at h9
  rw [List.get?_map, List.get?_map] at h9
  have e1 : (trainRawRows c1Fights).get? 9 =
      some ⟨c1Fight "d09" "B09", ⟨"A", "W", 9, 0, 9⟩, ⟨"B09", "W", 0, 0, 0⟩,
        ⟨"A", "B09", "W", 0, 0, 0⟩⟩ := by decide
  have e2 : (trainRawRows (c1Fights.take 10)).get? 9 =
      some ⟨c1Fight "d09" "B09", ⟨"A", "W", 8, 0, 8⟩, ⟨"B09", "W", 0, 0, 0⟩,
        ⟨"A", "B09", "W", 0, 0, 0⟩⟩ := by decide
  rw [e1, e2, Option.map_some', Option.map_some'] at h9
  have h16 := congrFun (Option.some.inj h9) ⟨16, by norm_num⟩
  have v1 : featureVec ⟨c1Fight "d09" "B09", ⟨"A", "W", 9, 0, 9⟩,
      ⟨"B09", "W", 0, 0, 0⟩, ⟨"A", "B09", "W", 0, 0, 0⟩⟩ ⟨16, by norm_num⟩ =
      (((9 : ℤ) - 0 : ℤ) : ℝ) := rfl
  have v2 : featureVec ⟨c1Fight "d09" "B09", ⟨"A", "W", 8, 0, 8⟩,
      ⟨"B09", "W", 0, 0, 0⟩, ⟨"A", "B09", "W", 0, 0, 0⟩⟩ ⟨16, by norm_num⟩ =
      (((8 : ℤ) - 0 : ℤ) : ℝ) := rfl
  rw [v1, v2] at h16
  norm_num at h16

/-! ### C2: context tracker totals invariant -/

/-- Number of observations in the sequence involving the given
(fighter, weight class) key. -/
def involvingCount (ds : List Fight) (n w : String) : ℕ :=
  ds.countP (fun f => decide ((f.fighter1 = n ∧ f.weightClass = w) ∨
    (f.fighter2 = n ∧ f.weightClass = w)))

/-- No two fighter records share a (name, weight class) key. -/
def fighterKeysNodup (l : List FighterRecord) : Prop :=
  l.Pairwise (fun r s => ¬(r.name = s.name ∧ r.weightClass = s.weightClass))

theorem findFighter_mem {l : List FighterRecord} {n w : String}
    {r : FighterRecord} (h : findFighter l n w = some r) :
    r ∈ l ∧ r.name = n ∧ r.weightClass = w := by
  induction l with
  | nil => simp [findFighter] at h
  | cons s rs ih =>
    by_cases hk : s.name = n ∧ s.weightClass = w
    · rw [findFighter, if_pos hk] at h
      cases Option.some.inj h
      exact ⟨List.mem_cons_self _ _, hk⟩
    · rw [findFighter, if_neg hk] at h
      obtain ⟨hm, hkey⟩ := ih h
      exact ⟨List.mem_cons_of_mem s hm, hkey⟩

theorem findFighter_eq_none {l : List FighterRecord} {n w : String} :
    findFighter l n w = none ↔
      ∀ r ∈ l, ¬(r.name = n ∧ r.weightClass = w) := by
  induction l with
  | nil => simp [findFighter]
  | cons s rs ih =>
    by_cases hk : s.name = n ∧ s.weightClass = w
    · rw [findFighter, if_pos hk]
      simp only [List.mem_cons]
      constructor
      · intro h; exact absurd h (by simp)
      · intro h; exact absurd hk (h s (Or.inl rfl))
    · rw [findFighter, if_neg hk, ih]
      simp only [List.mem_cons]
      constructor
      · intro h r hr
        rcases hr with hr | hr
        · cases hr; exact hk
        · exact h r hr
      · intro h r hr
        exact h r (Or.inr hr)

theorem mem_findFighter {l : List FighterRecord} {r : FighterRecord}
    (hnd : fighterKeysNodup l) (hr : r ∈ l) :
    findFighter l r.name r.weightClass = some r := by
  induction l with
  | nil => cases hr
  | cons s rs ih =>
    rcases List.pairwise_cons.mp hnd with ⟨hhead, htail⟩
    rcases List.mem_cons.mp hr with hr | hr
    · cases hr
      rw [findFighter, if_pos ⟨rfl, rfl⟩]
    · by_cases hk : s.name = r.name ∧ s.weightClass = r.weightClass
      · exact absurd hk (hhead r hr)
      · rw [findFighter, if_neg hk]
        exact ih htail hr

theorem findFighter_append (l1 l2 : List FighterRecord) (n w : String) :
    findFighter (l1 ++ l2) n w =
      match findFighter l1 n w with
      | some r => some r
      | none => findFighter l2 n w := by
  induction l1 with
  | nil => simp [findFighter]
  | cons s rs ih =>
    by_cases hk : s.name = n ∧ s.weightClass = w
    · simp [findFighter, if_pos hk]
    · simp only [List.cons_append, findFighter, if_neg hk]
      exact ih

/-- Key preservation for a record transformer. -/
def KeyPres (g : FighterRecord → FighterRecord) : Prop :=
  ∀ r, (g r).name = r.name ∧ (g r).weightClass = r.weightClass

theorem bumpTotal_keyPres : KeyPres bumpTotal := fun _ => ⟨rfl, rfl⟩

theorem bumpWins_keyPres : KeyPres bumpWins := fun _ => ⟨rfl, rfl⟩

theorem bumpLosses_keyPres : KeyPres bumpLosses := fun _ => ⟨rfl, rfl⟩

theorem findFighter_updateFirst_self (l : List FighterRecord) (n w : String)
    (g : FighterRecord → FighterRecord) (hg : KeyPres g) :
    findFighter (updateFirstFighter l n w g) n w =
      (findFighter l n w).map g := by
  induction l with
  | nil => simp [findFighter, updateFirstFighter]
  | cons s rs ih =>
    by_cases hk : s.name = n ∧ s.weightClass = w
    · rw [updateFirstFighter, if_pos hk, findFighter,
        if_pos ⟨((hg s).1).trans hk.1, ((hg s).2).trans hk.2⟩,
        findFighter, if_pos hk, Option.map_some']
    · rw [updateFirstFighter, if_neg hk, findFighter, if_neg hk,
        findFighter, if_neg hk]
      exact ih

theorem findFighter_updateFirst_other (l : List FighterRecord)
    (n w n2 w2 : String) (g : FighterRecord → FighterRecord) (hg : KeyPres g)
    (hne : ¬(n = n2 ∧ w = w2)) :
    findFighter (updateFirstFighter l n w g) n2 w2 = findFighter l n2 w2 := by
  induction l with
  | nil => simp [findFighter, updateFirstFighter]
  | cons s rs ih =>
    by_cases hk : s.name = n ∧ s.weightClass = w
    · have hks : ¬((g s).name = n2 ∧ (g s).weightClass = w2) := by
        rw [(hg s).1, (hg s).2, hk.1, hk.2]
        exact hne
      have hks2 : ¬(s.name = n2 ∧ s.weightClass = w2) := by
        rw [hk.1, hk.2]
        exact hne
      rw [updateFirstFighter, if_pos hk, findFighter, if_neg hks,
        findFighter, if_neg hks2]
    · by_cases hk2 : s.name = n2 ∧ s.weightClass = w2
      · rw [updateFirstFighter, if_neg hk, findFighter, if_pos hk2,
          findFighter, if_pos hk2]
      · rw [updateFirstFighter, if_neg hk, findFighter, if_neg hk2,
          findFighter, if_neg hk2]
        exact ih

theorem mem_updateFirstFighter {l : List FighterRecord} {n w : String}
    {g : FighterRecord → FighterRecord} {s : FighterRecord}
    (hs : s ∈ updateFirstFighter l n w g) :
    s ∈ l ∨ ∃ t, t ∈ l ∧ s = g t := by
  induction l with
  | nil => simp [updateFirstFighter] at hs
  | cons r rs ih =>
    by_cases hk : r.name = n ∧ r.weightClass = w
    · rw [updateFirstFighter, if_pos hk] at hs
      rcases List.mem_cons.mp hs with hs | hs
      · exact Or.inr ⟨r, List.mem_cons_self r rs, hs⟩
      · exact Or.inl (List.mem_cons_of_mem r hs)
    · rw [updateFirstFighter, if_neg hk] at hs
      rcases List.mem_cons.mp hs with hs | hs
      · exact Or.inl (by rw [hs]; exact List.mem_cons_self r rs)
      · rcases ih hs with h | ⟨t, ht, hst⟩
        · exact Or.inl (List.mem_cons_of_mem r h)
        · exact Or.inr ⟨t, List.mem_cons_of_mem r ht, hst⟩

theorem fighterKeysNodup_updateFirst {l : List FighterRecord} {n w : String}
    {g : FighterRecord → FighterRecord} (hg : KeyPres g)
    (hnd : fighterKeysNodup l) :
    fighterKeysNodup (updateFirstFighter l n w g) := by
  induction l with
  | nil => exact hnd
  | cons r rs ih =>
    rcases List.pairwise_cons.mp hnd with ⟨hhead, htail⟩
    by_cases hk : r.name = n ∧ r.weightClass = w
    · rw [updateFirstFighter, if_pos hk]
      refine List.pairwise_cons.mpr ⟨?_, htail⟩
      intro s hsmem
      rw [(hg r).1, (hg r).2]
      exact hhead s hsmem
    · rw [updateFirstFighter, if_neg hk]
      refine List.pairwise_cons.mpr ⟨?_, ih htail⟩
      intro s hsmem
      rcases mem_updateFirstFighter hsmem with hs | ⟨t, ht, hst⟩
      · exact hhead s hs
      · rw [hst, (hg t).1, (hg t).2]
        exact hhead t ht

theorem getOrAddFighter_h2h (ctx : MatchContext) (n w : String) :
    (getOrAddFighter ctx n w).2.h2h = ctx.h2h := by
  unfold getOrAddFighter
  cases findFighter ctx.fighters n w <;> rfl

theorem getOrAddH2H_fighters (ctx : MatchContext) (f1 f2 w : String) :
    (getOrAddH2H ctx f1 f2 w).2.fighters = ctx.fighters := by
  unfold getOrAddH2H
  dsimp only
  split <;> rfl

theorem findFighter_getOrAdd_self (ctx : MatchContext) (n w : String) :
    findFighter (getOrAddFighter ctx n w).2.fighters n w =
      some (getOrAddFighter ctx n w).1 := by
  unfold getOrAddFighter
  cases hf : findFighter ctx.fighters n w with
  | some r => exact hf
  | none =>
    simp only
    rw [findFighter_append, hf]
    simp [findFighter]

theorem findFighter_getOrAdd_other (ctx : MatchContext) (n w n2 w2 : String)
    (hne : ¬(n = n2 ∧ w = w2)) :
    findFighter (getOrAddFighter ctx n w).2.fighters n2 w2 =
      findFighter ctx.fighters n2 w2 := by
  unfold getOrAddFighter
  cases hf : findFighter ctx.fighters n2 w2 with
  | some r =>
    cases hf2 : findFighter ctx.fighters n w with
    | some s => exact hf
    | none =>
      simp only
      rw [findFighter_append, hf]
  | none =>
    cases hf2 : findFighter ctx.fighters n w with
    | some s => exact hf
    | none =>
      simp only
      rw [findFighter_append, hf]
      simp [findFighter, hne]

theorem fighterKeysNodup_getOrAdd (ctx : MatchContext) (n w : String)
    (hnd : fighterKeysNodup ctx.fighters) :
    fighterKeysNodup (getOrAddFighter ctx n w).2.fighters := by
  unfold getOrAddFighter
  cases hf : findFighter ctx.fighters n w with
  | some r => exact hnd
  | none =>
    simp only
    unfold fighterKeysNodup
    rw [List.pairwise_append]
    refine ⟨hnd, List.pairwise_singleton _ _, ?_⟩
    intro a ha b hb
    have hb2 : b = { name := n, weightClass := w } := by
      simpa using hb
    subst hb2
    exact findFighter_eq_none.mp hf a ha

theorem getOrAddFighter_fst (ctx : MatchContext) (n w : String) :
    (getOrAddFighter ctx n w).1 =
      match findFighter ctx.fighters n w with
      | some r => r
      | none => { name := n, weightClass := w } := by
  unfold getOrAddFighter
  dsimp only
  split <;> rfl

/-- The fighter-record side of update_context_with_result, with the
head-to-head get-or-add (which leaves the fighter list unchanged)
eliminated. -/
theorem updateContextWithResult_fighters (ctx : MatchContext) (fi : Fight) :
    (updateContextWithResult ctx fi).fighters =
      (let base := (getOrAddFighter
          (getOrAddFighter ctx fi.fighter1 fi.weightClass).2
          fi.fighter2 fi.weightClass).2.fighters
       let fs2 := updateFirstFighter
          (updateFirstFighter base fi.fighter1 fi.weightClass bumpTotal)
          fi.fighter2 fi.weightClass bumpTotal
       if fi.label = 1 then
         updateFirstFighter
           (updateFirstFighter fs2 fi.fighter1 fi.weightClass bumpWins)
           fi.fighter2 fi.weightClass bumpLosses
       else if fi.label = 0 then
         updateFirstFighter
           (updateFirstFighter fs2 fi.fighter2 fi.weightClass bumpWins)
           fi.fighter1 fi.weightClass bumpLosses
       else fs2) := by
  unfold updateContextWithResult
  dsimp only
  rw [getOrAddH2H_fighters]
  by_cases h1 : fi.label = 1
  · rw [if_pos h1, if_pos h1]
  · rw [if_neg h1, if_neg h1]
    by_cases h0 : fi.label = 0
    · rw [if_pos h0, if_pos h0]
    · rw [if_neg h0, if_neg h0]

/-- The claim's invariant, stated through the record lookup: every
stored record carries exactly the number of recorded observations
involving its key, wins and losses summing to the total, keys are
unique, and keys without a record have no recorded observation. -/
def fighterInv (ds : List Fight) (ctx : MatchContext) : Prop :=
  fighterKeysNodup ctx.fighters ∧
  (∀ n w r, findFighter ctx.fighters n w = some r →
      r.total = (involvingCount ds n w : ℤ) ∧ r.wins + r.losses = r.total) ∧
  (∀ n w, findFighter ctx.fighters n w = none → involvingCount ds n w = 0)

theorem involvingCount_append (ds : List Fight) (f : Fight) (n w : String) :
    involvingCount (ds ++ [f]) n w =
      involvingCount ds n w +
        (if (f.fighter1 = n ∧ f.weightClass = w) ∨
            (f.fighter2 = n ∧ f.weightClass = w) then 1 else 0) := by
  unfold involvingCount
  rw [List.countP_append]
  by_cases h : (f.fighter1 = n ∧ f.weightClass = w) ∨
      (f.fighter2 = n ∧ f.weightClass = w)
  · rw [if_pos h]
    simp [List.countP_cons, h]
  · rw [if_neg h]
    simp [List.countP_cons, h]

set_option maxHeartbeats 1000000 in
theorem fighterInv_update (ds : List Fight) (ctx : MatchContext) (f : Fight)
    (hInv : fighterInv ds ctx) (hlab : f.label = 0 ∨ f.label = 1)
    (hne : f.fighter1 ≠ f.fighter2) :
    fighterInv (ds ++ [f]) (updateContextWithResult ctx f) := by
  obtain ⟨hnd, hsome, hnone⟩ := hInv
  have hk12 : ¬(f.fighter1 = f.fighter2 ∧ f.weightClass = f.weightClass) :=
    fun h => hne h.1
  have hk21 : ¬(f.fighter2 = f.fighter1 ∧ f.weightClass = f.weightClass) :=
    fun h => hne h.1.symm
  set A := getOrAddFighter ctx f.fighter1 f.weightClass with hA
  set B := getOrAddFighter A.2 f.fighter2 f.weightClass with hB
  have hbase1 : findFighter B.2.fighters f.fighter1 f.weightClass = some A.1 := by
    rw [hB, findFighter_getOrAdd_other _ _ _ _ _ hk21]
    exact findFighter_getOrAdd_self ctx f.fighter1 f.weightClass
  have hbase2 : findFighter B.2.fighters f.fighter2 f.weightClass = some B.1 :=
    findFighter_getOrAdd_self A.2 f.fighter2 f.weightClass
  have hbaseo : ∀ n w, ¬(f.fighter1 = n ∧ f.weightClass = w) →
      ¬(f.fighter2 = n ∧ f.weightClass = w) →
      findFighter B.2.fighters n w = findFighter ctx.fighters n w := by
    intro n w hn1 hn2
    rw [hB, findFighter_getOrAdd_other _ _ _ _ _ hn2, hA,
      findFighter_getOrAdd_other _ _ _ _ _ hn1]
  have hbasend : fighterKeysNodup B.2.fighters :=
    fighterKeysNodup_getOrAdd _ _ _ (fighterKeysNodup_getOrAdd _ _ _ hnd)
  -- the record produced for fighter1 satisfies the ds-invariant
  have hA1tot : A.1.total = (involvingCount ds f.fighter1 f.weightClass : ℤ) ∧
      A.1.wins + A.1.losses = A.1.total := by
    rw [hA, getOrAddFighter_fst]
    cases hf : findFighter ctx.fighters f.fighter1 f.weightClass with
    | some r => exact hsome _ _ _ hf
    | none =>
      refine ⟨?_, rfl⟩
      rw [hnone _ _ hf]
      rfl
  have hB1tot : B.1.total = (involvingCount ds f.fighter2 f.weightClass : ℤ) ∧
      B.1.wins + B.1.losses = B.1.total := by
    rw [hB, getOrAddFighter_fst]
    have hpass : findFighter A.2.fighters f.fighter2 f.weightClass =
        findFighter ctx.fighters f.fighter2 f.weightClass := by
      rw [hA, findFighter_getOrAdd_other _ _ _ _ _ hk12]
    rw [hpass]
    cases hf : findFighter ctx.fighters f.fighter2 f.weightClass with
    | some r => exact hsome _ _ _ hf
    | none =>
      refine ⟨?_, rfl⟩
      rw [hnone _ _ hf]
      rfl
  -- mid-pipeline: both totals bumped
  set fs2 := updateFirstFighter
      (updateFirstFighter B.2.fighters f.fighter1 f.weightClass bumpTotal)
      f.fighter2 f.weightClass bumpTotal with hfs2
  have hfs2nd : fighterKeysNodup fs2 :=
    fighterKeysNodup_updateFirst bumpTotal_keyPres
      (fighterKeysNodup_updateFirst bumpTotal_keyPres hbasend)
  have hfs2_1 : findFighter fs2 f.fighter1 f.weightClass =
      some (bumpTotal A.1) := by
    rw [hfs2, findFighter_updateFirst_other _ _ _ _ _ _ bumpTotal_keyPres hk21,
      findFighter_updateFirst_self _ _ _ _ bumpTotal_keyPres, hbase1,
      Option.map_some']
  have hfs2_2 : findFighter fs2 f.fighter2 f.weightClass =
      some (bumpTotal B.1) := by
    rw [hfs2, findFighter_updateFirst_self _ _ _ _ bumpTotal_keyPres,
      findFighter_updateFirst_other _ _ _ _ _ _ bumpTotal_keyPres hk12,
      hbase2, Option.map_some']
  have hfs2_o : ∀ n w, ¬(f.fighter1 = n ∧ f.weightClass = w) →
      ¬(f.fighter2 = n ∧ f.weightClass = w) →
      findFighter fs2 n w = findFighter ctx.fighters n w := by
    intro n w hn1 hn2
    rw [hfs2, findFighter_updateFirst_other _ _ _ _ _ _ bumpTotal_keyPres hn2,
      findFighter_updateFirst_other _ _ _ _ _ _ bumpTotal_keyPres hn1,
      hbaseo n w hn1 hn2]
  rw [fighterInv, updateContextWithResult_fighters]
  dsimp only
  rcases hlab with hlab | hlab
  · -- label = 0: fighter2 wins, fighter1 loses
    have hne1 : ¬(f.label = 1) := by rw [hlab]; norm_num
    rw [if_neg hne1, if_pos hlab]
    refine ⟨fighterKeysNodup_updateFirst bumpLosses_keyPres
      (fighterKeysNodup_updateFirst bumpWins_keyPres hfs2nd), ?_, ?_⟩
    · intro n w r hr
      by_cases hc1 : f.fighter1 = n ∧ f.weightClass = w
      · obtain ⟨he1, hew⟩ := hc1
        subst he1
        subst hew
        rw [findFighter_updateFirst_self _ _ _ _ bumpLosses_keyPres,
          findFighter_updateFirst_other _ _ _ _ _ _ bumpWins_keyPres hk21,
          hfs2_1, Option.map_some'] at hr
        cases Option.some.inj hr
        rw [involvingCount_append]
        rw [if_pos (Or.inl ⟨rfl, rfl⟩)]
        unfold bumpLosses bumpTotal
        dsimp only
        push_cast
        refine ⟨by rw [hA1tot.1], ?_⟩
        rw [← hA1tot.2]
        ring
      · by_cases hc2 : f.fighter2 = n ∧ f.weightClass = w
        · obtain ⟨he2, hew⟩ := hc2
          subst he2
          subst hew
          rw [findFighter_updateFirst_other _ _ _ _ _ _ bumpLosses_keyPres hk12,
            findFighter_updateFirst_self _ _ _ _ bumpWins_keyPres,
            hfs2_2, Option.map_some'] at hr
          cases Option.some.inj hr
          rw [involvingCount_append]
          rw [if_pos (Or.inr ⟨rfl, rfl⟩)]
          unfold bumpWins bumpTotal
          dsimp only
          push_cast
          refine ⟨by rw [hB1tot.1], ?_⟩
          rw [← hB1tot.2]
          ring
        · rw [findFighter_updateFirst_other _ _ _ _ _ _ bumpLosses_keyPres hc1,
            findFighter_updateFirst_other _ _ _ _ _ _ bumpWins_keyPres hc2,
            hfs2_o n w hc1 hc2] at hr
          rw [involvingCount_append, if_neg (by tauto)]
          simpa using hsome n w r hr
    · intro n w hr
      by_cases hc1 : f.fighter1 = n ∧ f.weightClass = w
      · obtain ⟨he1, hew⟩ := hc1
        subst he1
        subst hew
        rw [findFighter_updateFirst_self _ _ _ _ bumpLosses_keyPres,
          findFighter_updateFirst_other _ _ _ _ _ _ bumpWins_keyPres hk21,
          hfs2_1, Option.map_some'] at hr
        cases hr
      · by_cases hc2 : f.fighter2 = n ∧ f.weightClass = w
        · obtain ⟨he2, hew⟩ := hc2
          subst he2
          subst hew
          rw [findFighter_updateFirst_other _ _ _ _ _ _ bumpLosses_keyPres hk12,
            findFighter_updateFirst_self _ _ _ _ bumpWins_keyPres,
            hfs2_2, Option.map_some'] at hr
          cases hr
        · rw [findFighter_updateFirst_other _ _ _ _ _ _ bumpLosses_keyPres hc1,
            findFighter_updateFirst_other _ _ _ _ _ _ bumpWins_keyPres hc2,
            hfs2_o n w hc1 hc2] at hr
          rw [involvingCount_append, if_neg (by tauto)]
          simpa using hnone n w hr
  · -- label = 1: fighter1 wins, fighter2 loses
    rw [if_pos hlab]
    refine ⟨fighterKeysNodup_updateFirst bumpLosses_keyPres
      (fighterKeysNodup_updateFirst bumpWins_keyPres hfs2nd), ?_, ?_⟩
    · intro n w r hr
      by_cases hc1 : f.fighter1 = n ∧ f.weightClass = w
      · obtain ⟨he1, hew⟩ := hc1
        subst he1
        subst hew
        rw [findFighter_updateFirst_other _ _ _ _ _ _ bumpLosses_keyPres hk21,
          findFighter_updateFirst_self _ _ _ _ bumpWins_keyPres,
          hfs2_1, Option.map_some'] at hr
        cases Option.some.inj hr
        rw [involvingCount_append]
        rw [if_pos (Or.inl ⟨rfl, rfl⟩)]
        unfold bumpWins bumpTotal
        dsimp only
        push_cast
        refine ⟨by rw [hA1tot.1], ?_⟩
        rw [← hA1tot.2]
        ring
      · by_cases hc2 : f.fighter2 = n ∧ f.weightClass = w
        · obtain ⟨he2, hew⟩ := hc2
          subst he2
          subst hew
          rw [findFighter_updateFirst_self _ _ _ _ bumpLosses_keyPres,
            findFighter_updateFirst_other _ _ _ _ _ _ bumpWins_keyPres hk12,
            hfs2_2, Option.map_some'] at hr
          cases Option.some.inj hr
          rw [involvingCount_append]
          rw [if_pos (Or.inr ⟨rfl, rfl⟩)]
          unfold bumpLosses bumpTotal
          dsimp only
          push_cast
          refine ⟨by rw [hB1tot.1], ?_⟩
          rw [← hB1tot.2]
          ring
        · rw [findFighter_updateFirst_other _ _ _ _ _ _ bumpLosses_keyPres hc2,
            findFighter_updateFirst_other _ _ _ _ _ _ bumpWins_keyPres hc1,
            hfs2_o n w hc1 hc2] at hr
          rw [involvingCount_append, if_neg (by tauto)]
          simpa using hsome n w r hr
    · intro n w hr
      by_cases hc1 : f.fighter1 = n ∧ f.weightClass = w
      · obtain ⟨he1, hew⟩ := hc1
        subst he1
        subst hew
        rw [findFighter_updateFirst_other _ _ _ _ _ _ bumpLosses_keyPres hk21,
          findFighter_updateFirst_self _ _ _ _ bumpWins_keyPres,
          hfs2_1, Option.map_some'] at hr
        cases hr
      · by_cases hc2 : f.fighter2 = n ∧ f.weightClass = w
        · obtain ⟨he2, hew⟩ := hc2
          subst he2
          subst hew
          rw [findFighter_updateFirst_self _ _ _ _ bumpLosses_keyPres,
            findFighter_updateFirst_other _ _ _ _ _ _ bumpWins_keyPres hk12,
            hfs2_2, Option.map_some'] at hr
          cases hr
        · rw [findFighter_updateFirst_other _ _ _ _ _ _ bumpLosses_keyPres hc2,
            findFighter_updateFirst_other _ _ _ _ _ _ bumpWins_keyPres hc1,
            hfs2_o n w hc1 hc2] at hr
          rw [involvingCount_append, if_neg (by tauto)]
          simpa using hnone n w hr

theorem fighterInv_applyAll (ds : List Fight)
    (hlab : ∀ f ∈ ds, f.label = 0 ∨ f.label = 1)
    (hdis : ∀ f ∈ ds, f.fighter1 ≠ f.fighter2) :
    fighterInv ds (applyAllResults ds) := by
  induction ds using List.reverseRecOn with
  | nil =>
    refine ⟨List.Pairwise.nil, ?_, ?_⟩
    · intro n w r h
      simp [applyAllResults, emptyContext, findFighter] at h
    · intro n w _
      rfl
  | append_singleton ds f ih =>
    have hds : applyAllResults (ds ++ [f]) =
        updateContextWithResult (applyAllResults ds) f := by
      unfold applyAllResults
      rw [List.foldl_append]
      rfl
    rw [hds]
    exact fighterInv_update ds (applyAllResults ds) f
      (ih (fun g hg => hlab g (List.mem_append_left _ hg))
          (fun g hg => hdis g (List.mem_append_left _ hg)))
      (hlab f (List.mem_append_right _ (List.mem_singleton_self f)))
      (hdis f (List.mem_append_right _ (List.mem_singleton_self f)))

/-- C2 (amended).  For every sequence of recorded observations with
resolved labels and two DISTINCT fighters per observation, after
applying update_context_with_result to all of them every stored
FighterRecord's total equals the number of observations involving its
(name, weight class) key, and wins + losses = total whenever total > 0.
Because the statement is quantified over every observation sequence, it
holds in particular after every prefix of updates: the predicate is
preserved by every single update.  (Distinctness is necessary: see the
counterexample, where a degenerate self-matchup is counted twice.) -/
theorem c2_context_totals (ds : List Fight)
    (hlab : ∀ f ∈ ds, f.label = 0 ∨ f.label = 1)
    (hdis : ∀ f ∈ ds, f.fighter1 ≠ f.fighter2) :
    ∀ r ∈ (applyAllResults ds).fighters,
      r.total = (involvingCount ds r.name r.weightClass : ℤ) ∧
      (0 < r.total → r.wins + r.losses = r.total) := by
  obtain ⟨hnd, hsome, _⟩ := fighterInv_applyAll ds hlab hdis
  intro r hr
  have hfind := mem_findFighter hnd hr
  obtain ⟨h1, h2⟩ := hsome r.name r.weightClass r hfind
  exact ⟨h1, fun _ => h2⟩

def c2Fights : List Fight :=
  [{ eventDate := "d0", weightClass := "W", fighter1 := "A", fighter2 := "B",
     label := 1 },
   { eventDate := "d1", weightClass := "W", fighter1 := "A", fighter2 := "C",
     label := 0 }]

theorem c2_context_totals_witness :
    (∀ f ∈ c2Fights, f.label = 0 ∨ f.label = 1) ∧
    (∀ f ∈ c2Fights, f.fighter1 ≠ f.fighter2) ∧
    (∀ r ∈ (applyAllResults c2Fights).fighters,
      r.total = (involvingCount c2Fights r.name r.weightClass : ℤ) ∧
      (0 < r.total → r.wins + r.losses = r.total)) :=
  ⟨by decide, by decide, c2_context_totals c2Fights (by decide) (by decide)⟩

def c2SelfFight : Fight :=
  { eventDate := "d0", weightClass := "W", fighter1 := "X", fighter2 := "X",
    label := 1 }

/-- C2 as frozen is false without distinctness: a single resolved
observation whose two sides are the same (fighter, weight class) key
increments that record's total twice, but only one observation involves
that fighter. -/
theorem c2_counterexample :
    (∀ f ∈ [c2SelfFight], f.label = 0 ∨ f.label = 1) ∧
    ¬ (∀ r ∈ (applyAllResults [c2SelfFight]).fighters,
        r.total = (involvingCount [c2SelfFight] r.name r.weightClass : ℤ)) := by
  constructor
  · decide
  · decide

/-! ### C3: mirrored training-set augmentation -/

/-- train's augmentation loop: aug_raw[i] = raw[i] and
aug_raw[i + B] = -raw[i] for i < B, written as append of the mirrored
block (the loop fills both halves index by index). -/
def augmentRaw (base : List (Fin 20 → ℝ)) : List (Fin 20 → ℝ) :=
  base ++ base.map (fun v => fun j => -(v j))

/-- aug_labels[i] = labels[i] and aug_labels[i + B] = 1 - labels[i]. -/
def augmentLabels (labels : List ℝ) : List ℝ :=
  labels ++ labels.map (fun l => 1 - l)

/-- The augmented training block train builds from the first
train_base_count feature rows. -/
noncomputable def trainAugRaw (ds : List Fight) : List (Fin 20 → ℝ) :=
  augmentRaw ((trainFeatureRows ds).take (trainBaseCount ds.length))

/-- The validation rows: the feature rows past the boundary, used
directly (normalized but never mirrored). -/
noncomputable def trainValRows (ds : List Fight) : List (Fin 20 → ℝ) :=
  (trainFeatureRows ds).drop (trainBaseCount ds.length)

theorem featureScan_length (B : ℕ) :
    ∀ (pos : ℕ) (ctx : MatchContext) (l : List Fight),
      (featureScan B pos ctx l).length = l.length := by
  intro pos ctx l
  induction l generalizing pos ctx with
  | nil => rfl
  | cons f fs ih =>
    rw [featureScan]
    simp only [List.length_cons]
    rw [ih]

theorem trainFeatureRows_length (ds : List Fight) :
    (trainFeatureRows ds).length = ds.length := by
  unfold trainFeatureRows trainRawRows
  rw [List.length_map, featureScan_length]

/-- C3.  The augmented training set has exactly 2*B samples; the sample
at index i + B is the elementwise negation of raw sample i with
complemented label; the samples below B are the raw samples themselves;
and the validation rows are the un-augmented feature rows after the
boundary. -/
theorem c3_augmented_training_set (base : List (Fin 20 → ℝ))
    (labels : List ℝ) (hB : 1 ≤ base.length)
    (hlen : labels.length = base.length) :
    (augmentRaw base).length = 2 * base.length ∧
    (augmentLabels labels).length = 2 * base.length ∧
    (∀ i, i < base.length →
      (augmentRaw base).get? i = base.get? i ∧
      (augmentRaw base).get? (i + base.length) =
        (base.get? i).map (fun v => fun j => -(v j)) ∧
      (augmentLabels labels).get? i = labels.get? i ∧
      (augmentLabels labels).get? (i + base.length) =
        (labels.get? i).map (fun l => 1 - l)) ∧
    (∀ (ds : List Fight),
      (trainValRows ds).length = ds.length - trainBaseCount ds.length ∧
      ∀ i, (trainValRows ds).get? i =
        (trainFeatureRows ds).get? (trainBaseCount ds.length + i)) := by
  refine ⟨?_, ?_, ?_, ?_⟩
  · simp [augmentRaw]
    ring
  · simp [augmentLabels, hlen]
    ring
  · intro i hi
    refine ⟨?_, ?_, ?_, ?_⟩
    · unfold augmentRaw
      exact List.get?_append hi
    · unfold augmentRaw
      rw [add_comm i base.length]
      rw [List.get?_append_right (Nat.le_add_right _ _)]
      rw [Nat.add_sub_cancel_left, List.get?_map]
    · unfold augmentLabels
      exact List.get?_append (by omega)
    · unfold augmentLabels
      rw [add_comm i base.length, ← hlen]
      rw [List.get?_append_right (Nat.le_add_right _ _)]
      rw [Nat.add_sub_cancel_left, List.get?_map]
  · intro ds
    constructor
    · unfold trainValRows
      rw [List.length_drop, trainFeatureRows_length]
    · intro i
      unfold trainValRows
      exact List.get?_drop _ _ _

theorem c3_augmented_training_set_witness :
    1 ≤ ([fun _ => (1 : ℝ)] : List (Fin 20 → ℝ)).length ∧
    ([(0 : ℝ)] : List ℝ).length =
      ([fun _ => (1 : ℝ)] : List (Fin 20 → ℝ)).length ∧
    (augmentRaw [fun _ => (1 : ℝ)]).length = 2 * 1 :=
  ⟨by norm_num, by norm_num,
   (c3_augmented_training_set [fun _ => (1 : ℝ)] [(0 : ℝ)] (by norm_num)
     (by norm_num)).1⟩

/-! ### The network over the reals: forward pass, normalizer, loss -/

noncomputable def sigmoid (x : ℝ) : ℝ := 1 / (1 + Real.exp (-x))

/-- Mirror of struct Model restricted to the fields read by forward /
normalize_features: the three weight matrices and bias vectors
(20 -> 64 -> 32 -> 1) and the per-feature normalization statistics.
The momentum velocities, cached activations and trained-sample count do
not influence the forward pass and are omitted. -/
structure Model where
  w1 : Fin 20 → Fin 64 → ℝ
  b1 : Fin 64 → ℝ
  w2 : Fin 64 → Fin 32 → ℝ
  b2 : Fin 32 → ℝ
  w3 : Fin 32 → ℝ
  b3 : ℝ
  featMean : Fin 20 → ℝ
  featStd : Fin 20 → ℝ

/-- First hidden layer of forward: tanh(b1[j] + sum_i in[i]*w1[i][j]). -/
noncomputable def hidden1 (m : Model) (x : Fin 20 → ℝ) (j : Fin 64) : ℝ :=
  Real.tanh (m.b1 j + ∑ i, x i * m.w1 i j)

/-- Second hidden layer: tanh(b2[j] + sum_i h1[i]*w2[i][j]). -/
noncomputable def hidden2 (m : Model) (x : Fin 20 → ℝ) (j : Fin 32) : ℝ :=
  Real.tanh (m.b2 j + ∑ i, hidden1 m x i * m.w2 i j)

/-- Output neuron: sigmoid(b3 + sum_j h2[j]*w3[j]). -/
noncomputable def forwardOut (m : Model) (x : Fin 20 → ℝ) : ℝ :=
  sigmoid (m.b3 + ∑ j, hidden2 m x j * m.w3 j)

/-- normalize_features: elementwise (x - mean)/std with stored stats. -/
noncomputable def normalizeVec (m : Model) (v : Fin 20 → ℝ) (i : Fin 20) : ℝ :=
  (v i - m.featMean i) / m.featStd i

/-- compute_normalization, mean part: sum[j]/count. -/
noncomputable def featMeanOf (samples : List (Fin 20 → ℝ)) (j : Fin 20) : ℝ :=
  (samples.map (fun v => v j)).sum / samples.length

/-- compute_normalization, mean-of-squares part: sq_sum[j]/count. -/
noncomputable def featSqMeanOf (samples : List (Fin 20 → ℝ)) (j : Fin 20) : ℝ :=
  (samples.map (fun v => v j * v j)).sum / samples.length

/-- compute_normalization, std part: sqrt of the variance clamped below
by 1e-8, replaced by 1.0 if the result is still below 1e-8. -/
noncomputable def featStdOf (samples : List (Fin 20 → ℝ)) (j : Fin 20) : ℝ :=
  let mean := featMeanOf samples j
  let variance := featSqMeanOf samples j - mean * mean
  let s := Real.sqrt (if variance > 0 then variance else 1 / 10 ^ 8)
  if s < 1 / 10 ^ 8 then 1 else s

/-- One cross-entropy term of the epoch loop:
-target*log(pred + 1e-15) - (1-target)*log(1 - pred + 1e-15). -/
noncomputable def ceLoss (pred target : ℝ) : ℝ :=
  -(target * Real.log (pred + 1 / 10 ^ 15)) -
    (1 - target) * Real.log (1 - pred + 1 / 10 ^ 15)

theorem sigmoid_pos (x : ℝ) : 0 < sigmoid x := by
  unfold sigmoid
  positivity

theorem sigmoid_lt_one (x : ℝ) : sigmoid x < 1 := by
  unfold sigmoid
  rw [div_lt_one (by positivity)]
  have h := Real.exp_pos (-x)
  linarith

theorem sigmoid_neg (x : ℝ) : sigmoid (-x) = 1 - sigmoid x := by
  unfold sigmoid
  rw [neg_neg]
  have h1 : (0:ℝ) < 1 + Real.exp x := by positivity
  have h2 : (0:ℝ) < 1 + Real.exp (-x) := by positivity
  rw [Real.exp_neg] at h2 ⊢
  have h3 := Real.exp_pos x
  field_simp
  ring

/-! ### C4: mirrored-pair loss symmetry of a freshly initialized net -/

theorem sum_map_neg (l : List (Fin 20 → ℝ)) (j : Fin 20) :
    (l.map (fun v => -(v j))).sum = -((l.map (fun v => v j)).sum) := by
  induction l with
  | nil => simp
  | cons a as ih => simp [ih]; ring

/-- The mirrored augmented set has feature mean exactly 0 (in exact
arithmetic): every column sums to s + (-s) = 0. -/
theorem featMeanOf_augment (base : List (Fin 20 → ℝ)) (j : Fin 20) :
    featMeanOf (augmentRaw base) j = 0 := by
  unfold featMeanOf augmentRaw
  rw [List.map_append, List.sum_append, List.map_map]
  have : (base.map ((fun v => v j) ∘ fun v => fun k => -(v k))).sum =
      -((base.map (fun v => v j)).sum) := by
    have heq : ((fun v => v j) ∘ fun (v : Fin 20 → ℝ) => fun k => -(v k)) =
        fun v => -(v j) := rfl
    rw [heq, sum_map_neg]
  rw [this]
  simp

theorem hidden1_neg (m : Model) (x : Fin 20 → ℝ) (hb1 : ∀ j, m.b1 j = 0)
    (j : Fin 64) : hidden1 m (fun i => -(x i)) j = -(hidden1 m x j) := by
  unfold hidden1
  rw [hb1 j]
  have : (∑ i, -(x i) * m.w1 i j) = -(∑ i, x i * m.w1 i j) := by
    rw [← Finset.sum_neg_distrib]
    congr 1
    funext i
    ring
  rw [this]
  rw [zero_add, zero_add, Real.tanh_neg]

theorem hidden2_neg (m : Model) (x : Fin 20 → ℝ) (hb1 : ∀ j, m.b1 j = 0)
    (hb2 : ∀ j, m.b2 j = 0) (j : Fin 32) :
    hidden2 m (fun i => -(x i)) j = -(hidden2 m x j) := by
  unfold hidden2
  rw [hb2 j]
  have : (∑ i, hidden1 m (fun i => -(x i)) i * m.w2 i j) =
      -(∑ i, hidden1 m x i * m.w2 i j) := by
    rw [← Finset.sum_neg_distrib]
    congr 1
    funext i
    rw [hidden1_neg m x hb1 i]
    ring
  rw [this]
  rw [zero_add, zero_add, Real.tanh_neg]

theorem forwardOut_neg (m : Model) (x : Fin 20 → ℝ) (hb1 : ∀ j, m.b1 j = 0)
    (hb2 : ∀ j, m.b2 j = 0) (hb3 : m.b3 = 0) :
    forwardOut m (fun i => -(x i)) = 1 - forwardOut m x := by
  unfold forwardOut
  rw [hb3]
  have : (∑ j, hidden2 m (fun i => -(x i)) j * m.w3 j) =
      -(∑ j, hidden2 m x j * m.w3 j) := by
    rw [← Finset.sum_neg_distrib]
    congr 1
    funext j
    rw [hidden2_neg m x hb1 hb2 j]
    ring
  rw [this]
  rw [zero_add, zero_add, sigmoid_neg]

/-- Complementing both prediction and target leaves the epsilon-guarded
cross-entropy term unchanged. -/
theorem ceLoss_compl (p y : ℝ) : ceLoss (1 - p) (1 - y) = ceLoss p y := by
  unfold ceLoss
  have h1 : (1 : ℝ) - (1 - p) + 1 / 10 ^ 15 = p + 1 / 10 ^ 15 := by ring
  rw [h1]
  ring

/-- C4.  With normalization statistics taken from the mirrored
augmented set (whose feature means are exactly 0 in exact arithmetic)
and zero biases (as set by init_model, for arbitrary weights), the
freshly initialized network satisfies forward(-x) = 1 - forward(x) on
normalized inputs, and the two members of every augmented pair
(v, y) and (-v, 1-y) contribute identical cross-entropy loss. -/
theorem c4_mirrored_pair_loss (m : Model) (base : List (Fin 20 → ℝ))
    (hmean : ∀ j, m.featMean j = featMeanOf (augmentRaw base) j)
    (hb1 : ∀ j, m.b1 j = 0) (hb2 : ∀ j, m.b2 j = 0) (hb3 : m.b3 = 0)
    (v : Fin 20 → ℝ) (y : ℝ) :
    (∀ j, m.featMean j = 0) ∧
    forwardOut m (normalizeVec m (fun j => -(v j))) =
      1 - forwardOut m (normalizeVec m v) ∧
    ceLoss (forwardOut m (normalizeVec m (fun j => -(v j)))) (1 - y) =
      ceLoss (forwardOut m (normalizeVec m v)) y := by
  have hm0 : ∀ j, m.featMean j = 0 := by
    intro j
    rw [hmean j, featMeanOf_augment]
  have hnorm : normalizeVec m (fun j => -(v j)) =
      fun j => -(normalizeVec m v j) := by
    funext j
    unfold normalizeVec
    rw [hm0 j]
    ring
  have hsym : forwardOut m (normalizeVec m (fun j => -(v j))) =
      1 - forwardOut m (normalizeVec m v) := by
    rw [hnorm]
    exact forwardOut_neg m (normalizeVec m v) hb1 hb2 hb3
  refine ⟨hm0, hsym, ?_⟩
  rw [hsym, ceLoss_compl]

noncomputable def c4Model : Model :=
  { w1 := fun _ _ => 0, b1 := fun _ => 0, w2 := fun _ _ => 0,
    b2 := fun _ => 0, w3 := fun _ => 0, b3 := 0,
    featMean := fun j => featMeanOf (augmentRaw []) j,
    featStd := fun _ => 1 }

theorem c4_mirrored_pair_loss_witness :
    (∀ j, c4Model.featMean j = featMeanOf (augmentRaw []) j) ∧
    (∀ j, c4Model.b1 j = 0) ∧ (∀ j, c4Model.b2 j = 0) ∧ c4Model.b3 = 0 ∧
    ceLoss (forwardOut c4Model
        (normalizeVec c4Model (fun j => -((fun _ => (1:ℝ)) j)))) (1 - 0) =
      ceLoss (forwardOut c4Model (normalizeVec c4Model (fun _ => (1:ℝ)))) 0 :=
  ⟨fun _ => rfl, fun _ => rfl, fun _ => rfl, rfl,
   (c4_mirrored_pair_loss c4Model [] (fun _ => rfl) (fun _ => rfl)
     (fun _ => rfl) rfl (fun _ => (1:ℝ)) 0).2.2⟩

/-! ### C5: normalization statistics and round trip -/

/-- C5.  After compute_normalization, every stored per-feature standard
deviation is strictly positive (variance floored at 1e-8, with 1.0
substituted if the square root is still below 1e-8), so
normalize_features never divides by zero; and normalizing followed by
the inverse affine map x*std + mean recovers every vector exactly over
the reals. -/
theorem c5_normalization_roundtrip (samples : List (Fin 20 → ℝ)) (m : Model)
    (hne : samples ≠ [])
    (hmean : ∀ j, m.featMean j = featMeanOf samples j)
    (hstd : ∀ j, m.featStd j = featStdOf samples j) :
    (∀ j, 0 < m.featStd j) ∧
    (∀ (v : Fin 20 → ℝ) (j : Fin 20),
      normalizeVec m v j * m.featStd j + m.featMean j = v j) := by
  have hpos : ∀ j, 0 < m.featStd j := by
    intro j
    rw [hstd j]
    unfold featStdOf
    dsimp only
    set s := Real.sqrt (if featSqMeanOf samples j -
        featMeanOf samples j * featMeanOf samples j > 0 then
        featSqMeanOf samples j - featMeanOf samples j * featMeanOf samples j
      else 1 / 10 ^ 8) with hs
    by_cases hc : s < 1 / 10 ^ 8
    · rw [if_pos hc]
      norm_num
    · rw [if_neg hc]
      push_neg at hc
      calc (0:ℝ) < 1 / 10 ^ 8 := by norm_num
        _ ≤ s := hc
  refine ⟨hpos, ?_⟩
  intro v j
  unfold normalizeVec
  rw [div_mul_cancel₀ _ (ne_of_gt (hpos j))]
  ring

noncomputable def c5Model : Model :=
  { w1 := fun _ _ => 0, b1 := fun _ => 0, w2 := fun _ _ => 0,
    b2 := fun _ => 0, w3 := fun _ => 0, b3 := 0,
    featMean := fun j => featMeanOf [fun _ => (0:ℝ)] j,
    featStd := fun j => featStdOf [fun _ => (0:ℝ)] j }

theorem c5_normalization_roundtrip_witness :
    ([fun _ => (0:ℝ)] : List (Fin 20 → ℝ)) ≠ [] ∧
    (∀ j, 0 < c5Model.featStd j) :=
  ⟨by simp,
   (c5_normalization_roundtrip [fun _ => (0:ℝ)] c5Model (by simp)
     (fun _ => rfl) (fun _ => rfl)).1⟩

/-! ### C10: output strictly inside (0,1), probabilities sum to 1 -/

/-- The second fighter's reported probability (predict_interactive
computes prob_f2_wins = 1 - prob_f1_wins). -/
noncomputable def fighter2Prob (p : ℝ) : ℝ := 1 - p

/-- C10.  For every model and every input, the forward pass emits a
probability strictly between 0 and 1; the two reported win
probabilities are each strictly inside (0,1) and sum exactly to 1; and
both epsilon-guarded logarithm arguments of the cross-entropy are
strictly positive. -/
theorem c10_forward_output_bounds (m : Model) (x : Fin 20 → ℝ) :
    0 < forwardOut m x ∧ forwardOut m x < 1 ∧
    0 < fighter2Prob (forwardOut m x) ∧ fighter2Prob (forwardOut m x) < 1 ∧
    forwardOut m x + fighter2Prob (forwardOut m x) = 1 ∧
    0 < forwardOut m x + 1 / 10 ^ 15 ∧
    0 < 1 - forwardOut m x + 1 / 10 ^ 15 := by
  have h1 : 0 < forwardOut m x := sigmoid_pos _
  have h2 : forwardOut m x < 1 := sigmoid_lt_one _
  unfold fighter2Prob
  refine ⟨h1, h2, by linarith, by linarith, by ring, by linarith, by linarith⟩

/-! ### C6: early stopping of the epoch loop -/

/-- Fixed patience window of the trainer. -/
def patience : ℕ := 50

/-- Fixed epoch cap of the trainer. -/
def maxEpochs : ℕ := 500

/-- The early-stopping bookkeeping of the epoch loop: best validation
accuracy so far (initialized to 0.0) and the no-improvement streak. -/
structure ESState where
  best : ℚ
  noImprove : ℕ
deriving DecidableEq

def esInit : ESState := ⟨0, 0⟩

/-- One epoch's early-stopping update: strict improvement resets the
streak; otherwise the streak grows and the loop breaks once it reaches
the patience window.  Equality with the best counts as no improvement. -/
def esStep (s : ESState) (a : ℚ) : ESState × Bool :=
  if s.best < a then (⟨a, 0⟩, false)
  else (⟨s.best, s.noImprove + 1⟩, decide (patience ≤ s.noImprove + 1))

/-- The bookkeeping state entering epoch e (no break taken so far). -/
def esStateAt (acc : ℕ → ℚ) : ℕ → ESState
  | 0 => esInit
  | e + 1 => (esStep (esStateAt acc e) (acc e)).1

/-- Whether the loop would break at the end of epoch e. -/
def esBreaks (acc : ℕ → ℚ) (e : ℕ) : Bool :=
  (esStep (esStateAt acc e) (acc e)).2

/-- The epoch loop: runs epochs from e while fuel remains, returning
the number of completed epochs (a break still completes its epoch). -/
def esGo (acc : ℕ → ℚ) : ℕ → ℕ → ESState → ℕ
  | e, 0, _ => e
  | e, fuel + 1, s =>
    let p := esStep s (acc e)
    if p.2 then e + 1 else esGo acc (e + 1) fuel p.1

/-- Completed epochs of a full training run (no cancellation). -/
def esCompletedEpochs (acc : ℕ → ℚ) : ℕ := esGo acc 0 maxEpochs esInit

theorem esGo_first_break (acc : ℕ → ℚ) (M : ℕ)
    (hnb : ∀ k, k < M → esBreaks acc k = false)
    (hbk : esBreaks acc M = true) :
    ∀ (fuel e : ℕ), e ≤ M → M < e + fuel →
      esGo acc e fuel (esStateAt acc e) = M + 1 := by
  intro fuel
  induction fuel with
  | zero =>
    intro e heM hMe
    omega
  | succ fuel ih =>
    intro e heM hMe
    rw [esGo]
    by_cases heq : e = M
    · subst heq
      have : (esStep (esStateAt acc e) (acc e)).2 = true := hbk
      simp only [this, if_true]
    · have helt : e < M := lt_of_le_of_ne heM heq
      have hfalse : (esStep (esStateAt acc e) (acc e)).2 = false :=
        hnb e helt
      simp only [hfalse, Bool.false_eq_true, if_false]
      have : (esStep (esStateAt acc e) (acc e)).1 = esStateAt acc (e + 1) :=
        rfl
      rw [this]
      exact ih (e + 1) helt (by omega)

/-- C6.  If the run reaches epoch bestEpoch, strictly improves its best
validation accuracy there, and no later epoch exceeds that accuracy
(equality counting as no improvement), and bestEpoch + patience is
below the epoch cap, the loop halts after completing exactly epoch
bestEpoch + patience: bestEpoch + patience + 1 epochs in total. -/
theorem c6_early_stopping (acc : ℕ → ℚ) (bestEpoch : ℕ)
    (hreach : ∀ k, k < bestEpoch → esBreaks acc k = false)
    (himpr : (esStateAt acc bestEpoch).best < acc bestEpoch)
    (hlater : ∀ e, bestEpoch < e → acc e ≤ acc bestEpoch)
    (hroom : bestEpoch + patience < maxEpochs) :
    esCompletedEpochs acc = bestEpoch + patience + 1 := by
  have hbB : esBreaks acc bestEpoch = false := by
    unfold esBreaks esStep
    rw [if_pos himpr]
  have hA : esStateAt acc (bestEpoch + 1) = ⟨acc bestEpoch, 0⟩ := by
    show (esStep (esStateAt acc bestEpoch) (acc bestEpoch)).1 = _
    unfold esStep
    rw [if_pos himpr]
  have hstate : ∀ j, j < patience →
      esStateAt acc (bestEpoch + 1 + j) = ⟨acc bestEpoch, j⟩ := by
    intro j
    induction j with
    | zero => intro _; exact hA
    | succ j ihj =>
      intro hj
      have hstep := ihj (by omega)
      show (esStep (esStateAt acc (bestEpoch + 1 + j))
        (acc (bestEpoch + 1 + j))).1 = _
      rw [hstep]
      unfold esStep
      have hle : acc (bestEpoch + 1 + j) ≤ acc bestEpoch :=
        hlater _ (by omega)
      rw [if_neg (by simpa using not_lt.mpr hle)]
  have hbreakat : ∀ j, j < patience →
      esBreaks acc (bestEpoch + 1 + j) = decide (patience ≤ j + 1) := by
    intro j hj
    unfold esBreaks
    rw [hstate j hj]
    unfold esStep
    have hle : acc (bestEpoch + 1 + j) ≤ acc bestEpoch :=
      hlater _ (by omega)
    rw [if_neg (by simpa using not_lt.mpr hle)]
  have hMeq : bestEpoch + patience = bestEpoch + 1 + (patience - 1) := by
    unfold patience
    omega
  have hbkM : esBreaks acc (bestEpoch + patience) = true := by
    rw [hMeq, hbreakat (patience - 1) (by unfold patience; omega)]
    unfold patience
    norm_num
  have hnb : ∀ k, k < bestEpoch + patience → esBreaks acc k = false := by
    intro k hk
    by_cases hk1 : k < bestEpoch
    · exact hreach k hk1
    · by_cases hk2 : k = bestEpoch
      · rw [hk2]; exact hbB
      · have hp : patience = 50 := rfl
        have hp2 : patience = 50 := rfl
        have : ∃ j, j < patience - 1 ∧ k = bestEpoch + 1 + j :=
          ⟨k - bestEpoch - 1, by omega, by omega⟩
        obtain ⟨j, hj, rfl⟩ := this
        rw [hbreakat j (by unfold patience at hj ⊢; omega)]
        simp only [decide_eq_false_iff_not, not_le]
        unfold patience at hj ⊢
        omega
  have h0 : esStateAt acc 0 = esInit := rfl
  unfold esCompletedEpochs
  rw [← h0]
  exact esGo_first_break acc (bestEpoch + patience) hnb hbkM maxEpochs 0
    (by omega) (by simpa using hroom)

/-- A concrete accuracy trace: one improvement at epoch 0, flat after. -/
def c6Acc : ℕ → ℚ := fun e => if e = 0 then 1 else 0

theorem c6_early_stopping_witness :
    (∀ k, k < 0 → esBreaks c6Acc k = false) ∧
    (esStateAt c6Acc 0).best < c6Acc 0 ∧
    (∀ e, 0 < e → c6Acc e ≤ c6Acc 0) ∧
    0 + patience < maxEpochs ∧
    esCompletedEpochs c6Acc = 0 + patience + 1 :=
  ⟨fun k hk => absurd hk (Nat.not_lt_zero k),
   by simp [esStateAt, esInit, c6Acc],
   fun e he => by simp [c6Acc, Nat.pos_iff_ne_zero.mp he],
   by decide,
   c6_early_stopping c6Acc 0 (fun k hk => absurd hk (Nat.not_lt_zero k))
     (by simp [esStateAt, esInit, c6Acc])
     (fun e he => by simp [c6Acc, Nat.pos_iff_ne_zero.mp he])
     (by decide)⟩

/-! ### C7: threshold grid search of evaluate_model -/

/-- The 61 candidate thresholds 0.20, 0.21, ..., 0.80. -/
def thresholdCandidates : List ℚ :=
  (List.range 61).map (fun k : ℕ => ((k : ℚ) + 20) / 100)

/-- True positives at a threshold: predicted 1 (prob >= t) and label 1. -/
def stpCount (val : List (ℚ × ℤ)) (t : ℚ) : ℕ :=
  val.countP (fun e => decide (t ≤ e.1) && decide (e.2 = 1))

/-- True negatives: predicted 0 (prob < t) and label 0. -/
def stnCount (val : List (ℚ × ℤ)) (t : ℚ) : ℕ :=
  val.countP (fun e => decide (e.1 < t) && decide (e.2 = 0))

/-- False positives: predicted 1 and label 0. -/
def sfpCount (val : List (ℚ × ℤ)) (t : ℚ) : ℕ :=
  val.countP (fun e => decide (t ≤ e.1) && decide (e.2 = 0))

/-- False negatives: predicted 0 and label 1. -/
def sfnCount (val : List (ℚ × ℤ)) (t : ℚ) : ℕ :=
  val.countP (fun e => decide (e.1 < t) && decide (e.2 = 1))

/-- True-positive rate, 0 when there are no positives. -/
def tprOf (val : List (ℚ × ℤ)) (t : ℚ) : ℚ :=
  if 0 < stpCount val t + sfnCount val t then
    (stpCount val t : ℚ) / ((stpCount val t : ℚ) + (sfnCount val t : ℚ))
  else 0

/-- True-negative rate, 0 when there are no negatives. -/
def tnrOf (val : List (ℚ × ℤ)) (t : ℚ) : ℚ :=
  if 0 < stnCount val t + sfpCount val t then
    (stnCount val t : ℚ) / ((stnCount val t : ℚ) + (sfpCount val t : ℚ))
  else 0

/-- Balanced accuracy 0.5*(TPR + TNR) at a threshold. -/
def balancedAccuracy (val : List (ℚ × ℤ)) (t : ℚ) : ℚ :=
  (1/2) * (tprOf val t + tnrOf val t)

/-- The grid-search loop: steps thresholds step/100, (step+1)/100, ...
for n iterations, keeping the first maximizer of balanced accuracy
(strictly-greater update). -/
def searchGo (val : List (ℚ × ℤ)) : ℕ → ℕ → ℚ × ℚ → ℚ × ℚ
  | _, 0, best => best
  | step, n + 1, best =>
    let t := ((step : ℚ)) / 100
    let b := balancedAccuracy val t
    searchGo val (step + 1) n (if best.2 < b then (t, b) else best)

/-- evaluate_model's threshold search: steps 20..80 starting from
best_threshold = 0.5, best_bal_acc = -1. -/
def selectBestThreshold (val : List (ℚ × ℤ)) : ℚ × ℚ :=
  searchGo val 20 61 (1/2, -1)

theorem tprOf_nonneg (val : List (ℚ × ℤ)) (t : ℚ) : 0 ≤ tprOf val t := by
  unfold tprOf
  split
  · positivity
  · exact le_refl 0

theorem tnrOf_nonneg (val : List (ℚ × ℤ)) (t : ℚ) : 0 ≤ tnrOf val t := by
  unfold tnrOf
  split
  · positivity
  · exact le_refl 0

theorem tprOf_le_one (val : List (ℚ × ℤ)) (t : ℚ) : tprOf val t ≤ 1 := by
  unfold tprOf
  split
  case isTrue h =>
    have hpos : (0:ℚ) < (stpCount val t : ℚ) + (sfnCount val t : ℚ) := by
      exact_mod_cast h
    rw [div_le_one hpos]
    have : (0:ℚ) ≤ (sfnCount val t : ℚ) := Nat.cast_nonneg _
    linarith
  case isFalse h => norm_num

theorem tnrOf_le_one (val : List (ℚ × ℤ)) (t : ℚ) : tnrOf val t ≤ 1 := by
  unfold tnrOf
  split
  case isTrue h =>
    have hpos : (0:ℚ) < (stnCount val t : ℚ) + (sfpCount val t : ℚ) := by
      exact_mod_cast h
    rw [div_le_one hpos]
    have : (0:ℚ) ≤ (sfpCount val t : ℚ) := Nat.cast_nonneg _
    linarith
  case isFalse h => norm_num

theorem balancedAccuracy_nonneg (val : List (ℚ × ℤ)) (t : ℚ) :
    0 ≤ balancedAccuracy val t := by
  unfold balancedAccuracy
  have h1 := tprOf_nonneg val t
  have h2 := tnrOf_nonneg val t
  linarith

theorem balancedAccuracy_le_one (val : List (ℚ × ℤ)) (t : ℚ) :
    balancedAccuracy val t ≤ 1 := by
  unfold balancedAccuracy
  have h1 := tprOf_le_one val t
  have h2 := tnrOf_le_one val t
  linarith

theorem searchGo_spec (val : List (ℚ × ℤ)) :
    ∀ (n step : ℕ) (best : ℚ × ℚ),
      (searchGo val step n best = best ∨
        (∃ k, k < n ∧
          (searchGo val step n best).1 = (((step + k : ℕ) : ℚ)) / 100 ∧
          (searchGo val step n best).2 =
            balancedAccuracy val ((searchGo val step n best).1))) ∧
      best.2 ≤ (searchGo val step n best).2 ∧
      (∀ k, k < n →
        balancedAccuracy val ((((step + k : ℕ) : ℚ)) / 100) ≤
          (searchGo val step n best).2) := by
  intro n
  induction n with
  | zero =>
    intro step best
    refine ⟨Or.inl rfl, le_refl _, ?_⟩
    intro k hk
    omega
  | succ n ih =>
    intro step best
    rw [searchGo]
    set t := ((step : ℚ)) / 100 with ht
    set b := balancedAccuracy val t with hb
    by_cases hup : best.2 < b
    · rw [if_pos hup]
      obtain ⟨hmem, hmono, hmax⟩ := ih (step + 1) (t, b)
      refine ⟨?_, le_of_lt (lt_of_lt_of_le hup hmono), ?_⟩
      · rcases hmem with hmem | ⟨k, hk, h1, h2⟩
        · refine Or.inr ⟨0, Nat.succ_pos n, ?_, ?_⟩
          · rw [hmem]
            norm_num [ht]
          · rw [hmem]
        · refine Or.inr ⟨k + 1, by omega, ?_, h2⟩
          rw [h1]
          congr 2
          omega
      · intro k hk
        cases k with
        | zero =>
          have : b ≤ (searchGo val (step + 1) n (t, b)).2 := hmono
          have heq : (((step + 0 : ℕ) : ℚ)) / 100 = t := by
            rw [ht]
            norm_num
          rw [heq, ← hb]
          exact this
        | succ k =>
          have := hmax k (by omega)
          have heq : ((step + 1 + k : ℕ) : ℚ) = ((step + (k + 1) : ℕ) : ℚ) := by
            congr 1
            omega
          rw [← heq]
          exact this
    · rw [if_neg hup]
      obtain ⟨hmem, hmono, hmax⟩ := ih (step + 1) best
      refine ⟨?_, hmono, ?_⟩
      · rcases hmem with hmem | ⟨k, hk, h1, h2⟩
        · exact Or.inl hmem
        · refine Or.inr ⟨k + 1, by omega, ?_, h2⟩
          rw [h1]
          congr 2
          omega
      · intro k hk
        cases k with
        | zero =>
          push_neg at hup
          have heq : (((step + 0 : ℕ) : ℚ)) / 100 = t := by
            rw [ht]
            norm_num
          rw [heq, ← hb]
          exact le_trans hup hmono
        | succ k =>
          have := hmax k (by omega)
          have heq : ((step + 1 + k : ℕ) : ℚ) = ((step + (k + 1) : ℕ) : ℚ) := by
            congr 1
            omega
          rw [← heq]
          exact this

/-- A grid threshold that perfectly separates a validation set with at
least one positive and one negative achieves balanced accuracy 1. -/
theorem balancedAccuracy_of_separating (val : List (ℚ × ℤ)) (t : ℚ)
    (hsep : ∀ e ∈ val, (e.2 = 1 → t ≤ e.1) ∧ (e.2 = 0 → e.1 < t))
    (hpos : ∃ e ∈ val, e.2 = 1) (hneg : ∃ e ∈ val, e.2 = 0) :
    balancedAccuracy val t = 1 := by
  have hsfn : sfnCount val t = 0 := by
    unfold sfnCount
    rw [List.countP_eq_zero]
    intro e he
    simp only [Bool.and_eq_true, decide_eq_true_eq, not_and]
    intro hlt h1
    exact absurd ((hsep e he).1 h1) (not_le.mpr hlt)
  have hsfp : sfpCount val t = 0 := by
    unfold sfpCount
    rw [List.countP_eq_zero]
    intro e he
    simp only [Bool.and_eq_true, decide_eq_true_eq, not_and]
    intro hle h0
    exact absurd ((hsep e he).2 h0) (not_lt.mpr hle)
  have hstp : 0 < stpCount val t := by
    unfold stpCount
    rw [List.countP_pos]
    obtain ⟨e, he, h1⟩ := hpos
    refine ⟨e, he, ?_⟩
    simp only [Bool.and_eq_true, decide_eq_true_eq]
    exact ⟨(hsep e he).1 h1, h1⟩
  have hstn : 0 < stnCount val t := by
    unfold stnCount
    rw [List.countP_pos]
    obtain ⟨e, he, h0⟩ := hneg
    refine ⟨e, he, ?_⟩
    simp only [Bool.and_eq_true, decide_eq_true_eq]
    exact ⟨(hsep e he).2 h0, h0⟩
  have hp : (stpCount val t : ℚ) ≠ 0 := by
    exact_mod_cast Nat.pos_iff_ne_zero.mp hstp
  have hn : (stnCount val t : ℚ) ≠ 0 := by
    exact_mod_cast Nat.pos_iff_ne_zero.mp hstn
  unfold balancedAccuracy tprOf tnrOf
  rw [hsfn, hsfp]
  rw [if_pos (by omega), if_pos (by omega)]
  rw [Nat.cast_zero, add_zero, add_zero, div_self hp, div_self hn]
  norm_num

/-- C7 (amended).  The threshold search considers exactly the 61
candidates 0.20..0.80; the selected threshold is one of them and
maximizes balanced accuracy over the grid; and whenever some grid
candidate perfectly separates a validation set containing at least one
positive and one negative, the selected threshold attains balanced
accuracy 1.  (The selected threshold need not lie near the separating
threshold: ties are broken toward the lowest candidate.) -/
theorem c7_threshold_grid_search (val : List (ℚ × ℤ)) (hne : val ≠ []) :
    thresholdCandidates.length = 61 ∧
    (selectBestThreshold val).1 ∈ thresholdCandidates ∧
    (∀ t ∈ thresholdCandidates,
      balancedAccuracy val t ≤
        balancedAccuracy val (selectBestThreshold val).1) ∧
    (∀ t ∈ thresholdCandidates,
      (∀ e ∈ val, (e.2 = 1 → t ≤ e.1) ∧ (e.2 = 0 → e.1 < t)) →
      (∃ e ∈ val, e.2 = 1) → (∃ e ∈ val, e.2 = 0) →
      balancedAccuracy val (selectBestThreshold val).1 = 1) := by
  have hdef : selectBestThreshold val = searchGo val 20 61 (1/2, -1) := rfl
  rw [hdef]
  obtain ⟨hmem, hmono, hmax⟩ := searchGo_spec val 61 20 (1/2, -1)
  have hsel2 : 0 ≤ (searchGo val 20 61 (1/2, -1)).2 := by
    have h0 := hmax 0 (by norm_num)
    have hnn := balancedAccuracy_nonneg val ((((20 + 0 : ℕ) : ℚ)) / 100)
    exact le_trans hnn h0
  rcases hmem with hmem | ⟨k, hk, h1, h2⟩
  · exfalso
    rw [hmem] at hsel2
    norm_num at hsel2
  · have hmemc : (searchGo val 20 61 (1/2, -1)).1 ∈ thresholdCandidates := by
      rw [h1, show (((20 + k : ℕ) : ℚ)) / 100 = ((k : ℚ) + 20) / 100 from by
        push_cast; ring]
      exact List.mem_map_of_mem (fun j : ℕ => ((j : ℚ) + 20) / 100)
        (List.mem_range.mpr hk)
    have hmaxc : ∀ t ∈ thresholdCandidates,
        balancedAccuracy val t ≤
          balancedAccuracy val (searchGo val 20 61 (1/2, -1)).1 := by
      intro t ht
      unfold thresholdCandidates at ht
      obtain ⟨k2, hk2m, rfl⟩ := List.mem_map.mp ht
      rw [← h2]
      have hle := hmax k2 (List.mem_range.mp hk2m)
      have heq : ((((20 + k2 : ℕ) : ℚ)) / 100) = ((k2 : ℚ) + 20) / 100 := by
        push_cast
        ring
      rw [heq] at hle
      exact hle
    refine ⟨rfl, hmemc, hmaxc, ?_⟩
    intro t ht hsep hpos hneg
    have h1t := balancedAccuracy_of_separating val t hsep hpos hneg
    have hle := hmaxc t ht
    rw [h1t] at hle
    have hge := balancedAccuracy_le_one val (searchGo val 20 61 (1/2, -1)).1
    linarith

def c7Val : List (ℚ × ℤ) := [(9/10, 1), (1/10, 0)]

theorem c7_threshold_grid_search_witness :
    c7Val ≠ [] ∧ thresholdCandidates.length = 61 :=
  ⟨by simp [c7Val], (c7_threshold_grid_search c7Val (by simp [c7Val])).1⟩

theorem c7Val_balAcc (t : ℚ) (h1 : 1/5 ≤ t) (h2 : t ≤ 4/5) :
    balancedAccuracy c7Val t = 1 := by
  apply balancedAccuracy_of_separating
  · intro e he
    simp only [c7Val, List.mem_cons, List.mem_singleton] at he
    rcases he with rfl | rfl | he
    · constructor
      · intro _
        dsimp only
        linarith
      · intro h
        simp at h
    · constructor
      · intro h
        simp at h
      · intro _
        dsimp only
        linarith
    · cases he
  · exact ⟨(9/10, 1), by simp [c7Val], rfl⟩
  · exact ⟨(1/10, 0), by simp [c7Val], rfl⟩

theorem c7_searchGo_stay (n : ℕ) :
    ∀ (step : ℕ) (best : ℚ × ℚ), best.2 = 1 →
      searchGo c7Val step n best = best := by
  induction n with
  | zero => intro step best _; rfl
  | succ n ih =>
    intro step best h
    rw [searchGo]
    have hle : balancedAccuracy c7Val (((step : ℚ)) / 100) ≤ 1 :=
      balancedAccuracy_le_one _ _
    rw [if_neg (by rw [h]; exact not_lt.mpr hle)]
    exact ih _ best h

theorem c7_selected :
    (selectBestThreshold c7Val).1 = 1/5 ∧ (selectBestThreshold c7Val).2 = 1 := by
  have hb : balancedAccuracy c7Val ((((20:ℕ) : ℚ)) / 100) = 1 := by
    apply c7Val_balAcc <;> norm_num
  have hsel : selectBestThreshold c7Val = ((((20:ℕ) : ℚ)) / 100, 1) := by
    unfold selectBestThreshold
    rw [show (61 : ℕ) = 60 + 1 from rfl, searchGo]
    rw [hb]
    rw [if_pos (by norm_num)]
    exact c7_searchGo_stay 60 21 _ rfl
  rw [hsel]
  norm_num

/-- C7 as frozen is false: this validation set is perfectly separated
by T* = 1/2 (inside (0.20, 0.80)), yet every grid candidate attains
balanced accuracy 1, the strictly-greater update keeps the first
maximizer, and the selected threshold 0.20 is 0.30 away from T*. -/
theorem c7_counterexample :
    ((1:ℚ)/10 < 1/2 ∧ (1:ℚ)/2 ≤ 9/10) ∧
    (∀ e ∈ c7Val, (e.2 = 1 → (1:ℚ)/2 ≤ e.1) ∧ (e.2 = 0 → e.1 < (1:ℚ)/2)) ∧
    (selectBestThreshold c7Val).1 = 1/5 ∧
    ¬(|(selectBestThreshold c7Val).1 - 1/2| ≤ 1/100) := by
  refine ⟨⟨by norm_num, by norm_num⟩, ?_, c7_selected.1, ?_⟩
  · intro e he
    simp only [c7Val, List.mem_cons, List.mem_singleton] at he
    rcases he with rfl | rfl | he
    · exact ⟨fun _ => by norm_num, fun h => by simp at h⟩
    · exact ⟨fun h => by simp at h, fun _ => by norm_num⟩
    · cases he
  · rw [c7_selected.1]
    rw [show (1:ℚ)/5 - 1/2 = -(3/10) from by norm_num, abs_neg,
      abs_of_pos (by norm_num : (0:ℚ) < 3/10)]
    norm_num

/-! ### C8: model snapshot persistence size check -/

/-- save_model: fwrite of the Model record's byte image. -/
def saveModelBytes (img : List ℕ) : List ℕ := img

/-- load_model: measure the file, reject it if it is SMALLER than the
Model record, otherwise fread the record's bytes from the start
(recordSize abstracts sizeof(Model)). -/
def loadModelBytes (recordSize : ℕ) (file : List ℕ) : Option (List ℕ) :=
  if file.length < recordSize then none else some (file.take recordSize)

/-- C8 (amended).  load_model rejects every snapshot strictly smaller
than the Model record and produces no partial model for it; a snapshot
of at least the record size is accepted (reading the leading record
bytes, even when the file is oversized); and a snapshot written by
save_model round-trips to the identical bytes. -/
theorem c8_load_size_check (recordSize : ℕ) (file img : List ℕ)
    (himg : img.length = recordSize) :
    (file.length < recordSize → loadModelBytes recordSize file = none) ∧
    (recordSize ≤ file.length →
      loadModelBytes recordSize file = some (file.take recordSize)) ∧
    loadModelBytes recordSize (saveModelBytes img) = some img := by
  refine ⟨?_, ?_, ?_⟩
  · intro h
    unfold loadModelBytes
    rw [if_pos h]
  · intro h
    unfold loadModelBytes
    rw [if_neg (not_lt.mpr h)]
  · unfold loadModelBytes saveModelBytes
    rw [if_neg (by omega)]
    rw [List.take_of_length_le (le_of_eq himg)]

theorem c8_load_size_check_witness :
    (List.replicate 16 (0:ℕ)).length = 16 ∧
    loadModelBytes 16 (saveModelBytes (List.replicate 16 (0:ℕ))) =
      some (List.replicate 16 (0:ℕ)) :=
  ⟨by decide,
   (c8_load_size_check 16 [] (List.replicate 16 (0:ℕ)) (by decide)).2.2⟩

/-- C8 as frozen is false: a snapshot whose size does NOT match the
record (17 bytes against a 16-byte record) is accepted, not rejected —
the check only rejects files smaller than the record. -/
theorem c8_counterexample :
    (List.replicate 17 (0:ℕ)).length ≠ 16 ∧
    loadModelBytes 16 (List.replicate 17 (0:ℕ)) =
      some (List.replicate 16 (0:ℕ)) := by
  constructor
  · decide
  · decide

/-! ### C9: future-matchup damping and temperature scaling -/

/-- The future-mode feature damping of predict_interactive: the four
historical-context deltas (win rate, total wins, total fights,
experience-weighted score) are scaled by 0.20 and the head-to-head bias
by 0.05; every other feature is untouched. -/
noncomputable def dampFutureFeatures (f : Fin 20 → ℝ) : Fin 20 → ℝ := fun i =>
  if i.val = 14 ∨ i.val = 15 ∨ i.val = 16 ∨ i.val = 17 then f i * (1/5)
  else if i.val = 19 then f i * (1/20)
  else f i

/-- Features actually fed to normalization, by mode. -/
noncomputable def queryFeatures (futureMode : Bool) (f : Fin 20 → ℝ) :
    Fin 20 → ℝ :=
  if futureMode then dampFutureFeatures f else f

/-- temperature_scale_probability: identity for temperature <= 1,
otherwise clamp to [1e-12, 1 - 1e-12], rescale the logit by the
temperature and re-apply the sigmoid. -/
noncomputable def temperatureScale (p temp : ℝ) : ℝ :=
  if temp ≤ 1 then p
  else
    let q := min (max p (1 / 10 ^ 12)) (1 - 1 / 10 ^ 12)
    sigmoid (Real.log (q / (1 - q)) / temp)

/-- The reported probability, by mode (future mode uses temperature 4). -/
noncomputable def reportedProbability (futureMode : Bool) (p : ℝ) : ℝ :=
  if futureMode then temperatureScale p 4 else p

/-- The full reported pipeline: damp (future mode only), normalize,
forward, recalibrate (future mode only). -/
noncomputable def predictPipeline (m : Model) (futureMode : Bool)
    (f : Fin 20 → ℝ) : ℝ :=
  reportedProbability futureMode
    (forwardOut m (normalizeVec m (queryFeatures futureMode f)))

theorem sigmoid_monotone : Monotone sigmoid := by
  intro a b hab
  unfold sigmoid
  have h1 : (0:ℝ) < 1 + Real.exp (-b) := by positivity
  have h2 : Real.exp (-b) ≤ Real.exp (-a) :=
    Real.exp_le_exp.mpr (neg_le_neg hab)
  apply one_div_le_one_div_of_le h1
  linarith

theorem temperatureScale_four (p : ℝ) :
    temperatureScale p 4 =
      sigmoid (Real.log ((min (max p (1 / 10 ^ 12)) (1 - 1 / 10 ^ 12)) /
        (1 - min (max p (1 / 10 ^ 12)) (1 - 1 / 10 ^ 12))) / 4) := by
  unfold temperatureScale
  rw [if_neg (by norm_num)]

theorem temperatureScale_monotone :
    Monotone (fun p => temperatureScale p 4) := by
  intro p q hpq
  show temperatureScale p 4 ≤ temperatureScale q 4
  rw [temperatureScale_four p, temperatureScale_four q]
  set eps : ℝ := 1 / 10 ^ 12 with heps
  set cp := min (max p eps) (1 - eps) with hcp
  set cq := min (max q eps) (1 - eps) with hcq
  have hle : cp ≤ cq := by
    rw [hcp, hcq]
    exact min_le_min (max_le_max hpq (le_refl eps)) (le_refl _)
  have hlo : eps ≤ cp := by
    rw [hcp]
    exact le_min (le_max_right _ _) (by rw [heps]; norm_num)
  have hhi : cq ≤ 1 - eps := by
    rw [hcq]
    exact min_le_right _ _
  have heps0 : (0:ℝ) < eps := by rw [heps]; norm_num
  have hp0 : 0 < cp := lt_of_lt_of_le heps0 hlo
  have hq1 : cq < 1 := lt_of_le_of_lt hhi (by rw [heps]; norm_num)
  have hp1 : cp < 1 := lt_of_le_of_lt (le_trans hle hhi) (by rw [heps]; norm_num)
  have hq0 : 0 < cq := lt_of_lt_of_le hp0 hle
  have hratio : cp / (1 - cp) ≤ cq / (1 - cq) := by
    rw [div_le_div_iff (by linarith) (by linarith)]
    nlinarith
  apply sigmoid_monotone
  have hlog : Real.log (cp / (1 - cp)) ≤ Real.log (cq / (1 - cq)) :=
    Real.log_le_log (div_pos hp0 (by linarith)) hratio
  linarith

/-- C9.  In future-matchup mode the four historical-context deltas are
scaled by 0.20 and the head-to-head bias by 0.05 before normalization,
every other feature is untouched, and the network output is replaced by
sigmoid(logit(clamp p)/4) — a monotone map with fixed point 1/2.  In
historical mode neither transformation is applied. -/
theorem c9_future_mode_transforms :
    (∀ f : Fin 20 → ℝ,
      queryFeatures true f ⟨14, by norm_num⟩ =
        f ⟨14, by norm_num⟩ * (1/5) ∧
      queryFeatures true f ⟨15, by norm_num⟩ =
        f ⟨15, by norm_num⟩ * (1/5) ∧
      queryFeatures true f ⟨16, by norm_num⟩ =
        f ⟨16, by norm_num⟩ * (1/5) ∧
      queryFeatures true f ⟨17, by norm_num⟩ =
        f ⟨17, by norm_num⟩ * (1/5) ∧
      queryFeatures true f ⟨19, by norm_num⟩ =
        f ⟨19, by norm_num⟩ * (1/20) ∧
      (∀ i : Fin 20, i.val ≠ 14 → i.val ≠ 15 → i.val ≠ 16 → i.val ≠ 17 →
        i.val ≠ 19 → queryFeatures true f i = f i)) ∧
    (∀ p : ℝ, reportedProbability true p =
      sigmoid (Real.log ((min (max p (1 / 10 ^ 12)) (1 - 1 / 10 ^ 12)) /
        (1 - min (max p (1 / 10 ^ 12)) (1 - 1 / 10 ^ 12))) / 4)) ∧
    Monotone (fun p => reportedProbability true p) ∧
    reportedProbability true (1/2) = 1/2 ∧
    (∀ (m : Model) (f : Fin 20 → ℝ), predictPipeline m true f =
      temperatureScale (forwardOut m (normalizeVec m (dampFutureFeatures f))) 4) ∧
    (∀ f : Fin 20 → ℝ, queryFeatures false f = f) ∧
    (∀ p : ℝ, reportedProbability false p = p) ∧
    (∀ (m : Model) (f : Fin 20 → ℝ), predictPipeline m false f =
      forwardOut m (normalizeVec m f)) := by
  refine ⟨?_, ?_, ?_, ?_, ?_, ?_, ?_, ?_⟩
  · intro f
    refine ⟨?_, ?_, ?_, ?_, ?_, ?_⟩
    · norm_num [queryFeatures, dampFutureFeatures]
    · norm_num [queryFeatures, dampFutureFeatures]
    · norm_num [queryFeatures, dampFutureFeatures]
    · norm_num [queryFeatures, dampFutureFeatures]
    · norm_num [queryFeatures, dampFutureFeatures]
    · intro i h14 h15 h16 h17 h19
      unfold queryFeatures dampFutureFeatures
      rw [if_pos rfl, if_neg (by tauto), if_neg h19]
  · intro p
    unfold reportedProbability temperatureScale
    rw [if_pos rfl, if_neg (by norm_num)]
  · intro p q hpq
    show reportedProbability true p ≤ reportedProbability true q
    unfold reportedProbability
    rw [if_pos rfl, if_pos rfl]
    exact temperatureScale_monotone hpq
  · unfold reportedProbability temperatureScale
    rw [if_pos rfl, if_neg (by norm_num)]
    have h1 : max ((1:ℝ)/2) (1 / 10 ^ 12) = 1/2 :=
      max_eq_left (by norm_num)
    have h2 : min ((1:ℝ)/2) (1 - 1 / 10 ^ 12) = 1/2 :=
      min_eq_left (by norm_num)
    dsimp only
    rw [h1, h2]
    rw [show (1:ℝ) - 1/2 = 1/2 from by norm_num, div_self (by norm_num : (1:ℝ)/2 ≠ 0),
      Real.log_one, zero_div]
    unfold sigmoid
    rw [neg_zero, Real.exp_zero]
    norm_num
  · intro m f
    unfold predictPipeline reportedProbability queryFeatures
    rw [if_pos rfl, if_pos rfl]
  · intro f
    unfold queryFeatures
    simp
  · intro p
    unfold reportedProbability
    simp
  · intro m f
    unfold predictPipeline reportedProbability queryFeatures
    simp

end UFC
